import Mathlib

/-!
# Verification of the webb-tools crypto-primitives Poseidon / identity CRH core

Shallow embedding of the repository's hash core:

* `src/src/lib.rs` — byte decoding helpers and the `CryptoError` type;
* `src/src/crh/poseidon/mod.rs` — native `PoseidonParameters`, `CRH::permute`,
  `CRH::apply_linear_layer`, `CRH::evaluate`, `PoseidonError`;
* `src/src/crh/poseidon/constraints.rs` — the circuit gadget `CRHGadget`
  (modelled at the level of the values its variables hold, plus a small
  symbolic constraint-system model for the input-decoding step);
* `src/src/crh/poseidon/sbox/constraints.rs` — circuit S-box synthesis;
* `src/src/crh/identity/mod.rs` — the identity CRH.

The prime field is modelled as `ZMod p`.  Rust machine bytes are natural
numbers (`< 256` where that matters).  Fallible Rust code returns an
`Outcome`: `ok` for `Ok`, `err` for `Err`, and `abort` for a process abort
(`panic!`, failing `assert`, out-of-bounds `Vec` indexing, `Option::unwrap`
on `None`), with the abort site recorded by an `AbortKind` tag.
-/

namespace CryptoPrimitives

/-- Abort (Rust process panic) sites occurring in the modelled code:
the explicit length `panic!` in `CRH::evaluate`, `Option::unwrap` on `None`,
out-of-bounds `Vec` indexing, and a failing `assert!` / `assert_eq!`. -/
inductive AbortKind : Type
  | inputLen
  | unwrapNone
  | indexOOB
  | assertFail
  deriving DecidableEq, Repr

/-- Outcome of running a piece of Rust code: a value, a recoverable typed
error (`Result::Err`), or a process abort. -/
inductive Outcome (ε : Type) (α : Type) : Type
  | ok (a : α)
  | err (e : ε)
  | abort (k : AbortKind)
  deriving DecidableEq, Repr

namespace Outcome

def bind {ε α β : Type} : Outcome ε α → (α → Outcome ε β) → Outcome ε β
  | ok a, f => f a
  | err e, _ => err e
  | abort k, _ => abort k

instance {ε : Type} : Monad (Outcome ε) where
  pure := ok
  bind := bind

/-- Models the `?`-operator's `From` conversion on the error type. -/
def mapErr {ε ε' α : Type} (f : ε → ε') : Outcome ε α → Outcome ε' α
  | ok a => ok a
  | err e => err (f e)
  | abort k => abort k



end Outcome

/-- Rust `Vec` indexing `v[i]`: aborts (panics) when out of bounds. -/
def idxP {ε α : Type} (l : List α) (i : ℕ) : Outcome ε α :=
  match l.get? i with
  | some a => .ok a
  | none => .abort .indexOOB



/-- `Option::unwrap`: aborts on `None`. -/
def unwrapP {ε α : Type} : Option α → Outcome ε α
  | some a => .ok a
  | none => .abort .unwrapNone



/-! ## Little-endian bytes -/

/-- Little-endian value of a byte list (bytes are naturals, radix 256). -/
def leVal : List ℕ → ℕ
  | [] => 0
  | b :: bs => b + 256 * leVal bs



/-- Little-endian byte encoding of a natural in `k` bytes. -/
def leBytes : ℕ → ℕ → List ℕ
  | 0, _ => []
  | k + 1, n => (n % 256) :: leBytes k (n / 256)



/-! ## Rust slice `chunks` -/

/-- Structural worker for `chunks`: the fuel (first `ℕ` argument after the
chunk size) only bounds the recursion depth; any fuel at least the list
length gives the chunk decomposition. -/
def chunksAux {α : Type} (n : ℕ) : ℕ → List α → List (List α)
  | _, [] => []
  | 0, a :: l => [a :: l]
  | fuel + 1, a :: l => (a :: l).take n :: chunksAux n fuel ((a :: l).drop n)

/-- Rust `slice::chunks(n)`: splits into consecutive chunks of length `n`,
the final chunk possibly shorter.  (`chunks(0)` panics in Rust; the callers
in this crate always pass a positive chunk size.) -/
def chunks {α : Type} (n : ℕ) (l : List α) : List (List α) :=
  match n with
  | 0 => match l with | [] => [] | a :: t => [a :: t]
  | n + 1 => chunksAux (n + 1) l.length l



/-! ## Errors (`src/src/lib.rs`, `src/src/crh/poseidon/mod.rs`) -/

/-- `CryptoError` from `src/src/lib.rs`. -/
inductive CryptoError : Type
  | IncorrectInputLength (len : ℕ)
  | NotPrimeOrder
  deriving DecidableEq, Repr

/-- `PoseidonError` from `src/src/crh/poseidon/mod.rs`. -/
inductive PoseidonError : Type
  | InvalidSboxSize (s : ℕ)
  | ApplySboxFailed
  | InvalidInputs
  deriving DecidableEq, Repr

/-- `SynthesisError` of the external `ark_relations` crate (only the shape
needed here: some opaque error values). -/
inductive SynthesisError : Type
  | AssignmentMissing
  deriving DecidableEq, Repr

/-- The crate-level `type Error = Box<dyn ark_std::error::Error>`: any of the
error values that can flow through it in the modelled code.  `deser` stands
for a field-element deserialization failure from the external `ark_ff` crate. -/
inductive BoxedError : Type
  | deser
  | poseidon (e : PoseidonError)
  | crypto (e : CryptoError)
  deriving DecidableEq, Repr

/-! ## Byte decoding (`src/src/lib.rs` / `src/src/crh/poseidon/mod.rs`) -/

/-- Modelled from the spec: the external `ark_ff` deserialization `F::read`
(the FieldElement capability's "fixed-size canonical byte encoding"; the
final chunk may be shorter, §4.4).  It accepts a little-endian byte chunk
exactly when the encoded value lies in the field, and rejects non-canonical
encodings with a deserialization error. -/
def readF (p : ℕ) (chunk : List ℕ) : Option (ZMod p) :=
  if leVal chunk < p then some ((leVal chunk : ℕ) : ZMod p) else none

/-- Modelled from the spec: the external `ark_ff`
`F::from_le_bytes_mod_order`, interpreting bytes little-endian and reducing
modulo the field order. -/
def from_le_bytes_mod_order (p : ℕ) (bytes : List ℕ) : ZMod p :=
  ((leVal bytes : ℕ) : ZMod p)

/-- `collect::<Result<Vec<_>, _>>()` over the per-chunk reads: first failure
wins. -/
def collectRead (p : ℕ) : List (List ℕ) → Option (List (ZMod p))
  | [] => some []
  | c :: cs =>
      match readF p c, collectRead p cs with
      | some x, some xs => some (x :: xs)
      | some _, none => none
      | none, _ => none

/-- `to_field_elements` (`src/src/lib.rs` lines 70-78, duplicated in
`src/src/crh/poseidon/mod.rs` lines 18-26): chunk the bytes by the field's
byte size `L` (`F::BigInt::NUM_LIMBS * 8`) and deserialize each chunk. -/
def to_field_elements (p L : ℕ) (bytes : List ℕ) : Outcome BoxedError (List (ZMod p)) :=
  match collectRead p (chunks L bytes) with
  | some res => .ok res
  | none => .err .deser

/-! ## S-boxes -/

/-- `PoseidonSbox` (declared in `src/src/crh/poseidon/sbox/mod.rs`, not under
`src/`; its shape is fixed by the uses in `src/`: `Exponentiation(val)` with
an integer exponent — compare `PoseidonError::InvalidSboxSize(usize)` — and
`Inverse`). -/
inductive PoseidonSbox : Type
  | Exponentiation (val : ℕ)
  | Inverse
  deriving DecidableEq, Repr

/-- Modelled from the spec: the native `PoseidonSbox::apply_sbox` lives in
`src/src/crh/poseidon/sbox/mod.rs`, which is not under `src/`.  §4.3 of the
spec gives the multiplication chains: `Power(3)` is one squaring and one
further multiply, `Power(5)` is `x² → x⁴ → x⁵`, `Inverse` is the field
inverse.  The failure values follow the `PoseidonError` declaration in
`src/src/crh/poseidon/mod.rs`: an unsupported exponent is
`InvalidSboxSize` ("sbox is not supported") and an inverse failure is
`ApplySboxFailed` ("failed to apply sbox"). -/
def PoseidonSbox.apply_sbox {p : ℕ} : PoseidonSbox → ZMod p → Outcome PoseidonError (ZMod p)
  | .Exponentiation 3, x => .ok ((x * x) * x)
  | .Exponentiation 5, x => .ok (x * ((x * x) * (x * x)))
  | .Exponentiation v, _ => .err (.InvalidSboxSize v)
  | .Inverse, x => if x = 0 then .err .ApplySboxFailed else .ok x⁻¹

/-- `PoseidonSbox::synthesize_sbox` (`src/src/crh/poseidon/sbox/constraints.rs`),
at the level of the values the synthesized variables hold:
exponent 3 is `synthesize_exp3_sbox` (`sqr = x*x; cube = x*sqr`),
exponent 5 is `synthesize_exp5_sbox` (`sqr = x*x; fourth = sqr*sqr;
fifth = x*fourth`), any other exponent falls through the `_` arm to
`synthesize_exp3_sbox`, and `Inverse` is `input_var.inverse().unwrap()`
(an unwrap-style abort when no inverse exists). -/
def PoseidonSbox.synthesize_sbox {p : ℕ} : PoseidonSbox → ZMod p → Outcome SynthesisError (ZMod p)
  | .Exponentiation 3, x => .ok (x * (x * x))
  | .Exponentiation 5, x => .ok (x * ((x * x) * (x * x)))
  | .Exponentiation _, x => .ok (x * (x * x))
  | .Inverse, x => if x = 0 then .abort .unwrapNone else .ok x⁻¹

/-! ## Parameters and round schedule (`src/src/crh/poseidon/mod.rs`) -/

/-- The `Rounds` trait: width, full and partial round counts, S-box choice. -/
structure Rounds : Type where
  WIDTH : ℕ
  FULL_ROUNDS : ℕ
  PARTIAL_ROUNDS : ℕ
  SBOX : PoseidonSbox
  deriving DecidableEq, Repr

/-- `PoseidonParameters`: the flat round-key list and the MDS matrix. -/
structure PoseidonParameters (p : ℕ) : Type where
  round_keys : List (ZMod p)
  mds_matrix : List (List (ZMod p))
  deriving DecidableEq

/-- `PoseidonParameters::new` (`src/src/crh/poseidon/mod.rs` lines 74-79):
stores the two vectors as given. -/
def PoseidonParameters.new {p : ℕ} (round_keys : List (ZMod p))
    (mds_matrix : List (List (ZMod p))) : PoseidonParameters p :=
  { round_keys := round_keys, mds_matrix := mds_matrix }

/-- `PoseidonParametersVar::new_variable`
(`src/src/crh/poseidon/constraints.rs` lines 127-153), at the level of the
values the variables hold: every round key and matrix entry becomes an
`FpVar::Constant` carrying the same field value, so the gadget's parameter
bundle holds exactly the native values. -/
def PoseidonParametersVar.new_variable {p : ℕ} (params : PoseidonParameters p) :
    PoseidonParameters p :=
  params

/-! ## The permutation

`CRH::permute` (`src/src/crh/poseidon/mod.rs` lines 102-146) and
`CRHGadget::permute` (`src/src/crh/poseidon/constraints.rs` lines 28-78) are
line-for-line the same round schedule, differing only in the value type
(field element vs. circuit variable) and in the S-box call
(`apply_sbox` vs. `synthesize_sbox`).  `permuteAux` embeds that shared text
once, parameterized by the S-box map; the two named `permute`s instantiate
it.  The `ℕ` component threads `round_keys_offset`. -/

/-- The body of the full-round S-box loop at position `i`:
`state[i] += round_keys[offset]; state[i] = SBOX(state[i])?; offset += 1`. -/
def sboxStep {p : ℕ} {ε : Type} (sboxF : ZMod p → Outcome ε (ZMod p))
    (keys : List (ZMod p)) (i : ℕ) (so : List (ZMod p) × ℕ) :
    Outcome ε (List (ZMod p) × ℕ) := do
  let k ← idxP keys so.2
  let x ← idxP so.1 i
  let y ← sboxF (x + k)
  pure (so.1.set i y, so.2 + 1)

/-- One full-round S-box layer: `for i in 0..width { … }`. -/
def sboxLayer {p : ℕ} {ε : Type} (sboxF : ZMod p → Outcome ε (ZMod p))
    (keys : List (ZMod p)) (width : ℕ) (st : List (ZMod p) × ℕ) :
    Outcome ε (List (ZMod p) × ℕ) :=
  (List.range width).foldl (fun acc i => acc.bind (sboxStep sboxF keys i)) (.ok st)

/-- The body of the partial-round key-addition loop at position `i`:
`state[i] += round_keys[offset]; offset += 1`. -/
def keyAddStep {p : ℕ} {ε : Type} (keys : List (ZMod p)) (i : ℕ)
    (so : List (ZMod p) × ℕ) : Outcome ε (List (ZMod p) × ℕ) := do
  let k ← idxP keys so.2
  let x ← idxP so.1 i
  pure (so.1.set i (x + k), so.2 + 1)

/-- The key-addition part of a partial round: `for i in 0..width { … }`. -/
def keyAddLayer {p : ℕ} {ε : Type} (keys : List (ZMod p)) (width : ℕ)
    (st : List (ZMod p) × ℕ) : Outcome ε (List (ZMod p) × ℕ) :=
  (List.range width).foldl (fun acc i => acc.bind (keyAddStep keys i)) (.ok st)

/-- The inner loop of `apply_linear_layer`: the accumulator
`sc = Σ_j mds[i][j] * state[j]` for row `i`. -/
def linearRowSum {p : ℕ} {ε : Type} (state : List (ZMod p))
    (mds : List (List (ZMod p))) (i : ℕ) : Outcome ε (ZMod p) :=
  (List.range state.length).foldl
    (fun sacc j => sacc.bind fun sc => do
      let row ← idxP mds i
      let mij ← idxP row j
      let xj ← idxP state j
      pure (sc + mij * xj))
    (.ok (0 : ZMod p))

/-- `apply_linear_layer` (`src/src/crh/poseidon/mod.rs` lines 148-159, and
identically `src/src/crh/poseidon/constraints.rs` lines 80-91):
`new_state[i] = Σ_j mds[i][j] * state[j]`, row by row, pushed onto a fresh
vector. -/
def apply_linear_layer {p : ℕ} {ε : Type} (state : List (ZMod p))
    (mds : List (List (ZMod p))) : Outcome ε (List (ZMod p)) :=
  (List.range state.length).foldl
    (fun acc i => acc.bind fun new_state =>
      (linearRowSum state mds i).bind fun sc => pure (new_state ++ [sc]))
    (.ok [])

/-- A full round: S-box layer then linear layer. -/
def fullRound {p : ℕ} {ε : Type} (sboxF : ZMod p → Outcome ε (ZMod p))
    (keys : List (ZMod p)) (mds : List (List (ZMod p))) (width : ℕ)
    (st : List (ZMod p) × ℕ) : Outcome ε (List (ZMod p) × ℕ) := do
  let so ← sboxLayer sboxF keys width st
  let s2 ← apply_linear_layer so.1 mds
  pure (s2, so.2)

/-- A partial round: key addition on all positions, S-box on `state[0]`
only, then the linear layer. -/
def partialRound {p : ℕ} {ε : Type} (sboxF : ZMod p → Outcome ε (ZMod p))
    (keys : List (ZMod p)) (mds : List (List (ZMod p))) (width : ℕ)
    (st : List (ZMod p) × ℕ) : Outcome ε (List (ZMod p) × ℕ) := do
  let so ← keyAddLayer keys width st
  let x0 ← idxP so.1 0
  let y0 ← sboxF x0
  let s2 ← apply_linear_layer (so.1.set 0 y0) mds
  pure (s2, so.2)

/-- `for _ in 0..n { st = round(st)? }`. -/
def iterateRound {ε α : Type} (f : α → Outcome ε α) : ℕ → α → Outcome ε α
  | 0, st => .ok st
  | n + 1, st => (f st).bind (iterateRound f n)

/-- The shared permutation text: `FULL_ROUNDS / 2` full rounds, then
`PARTIAL_ROUNDS` partial rounds, then `FULL_ROUNDS / 2` full rounds, with
`round_keys_offset` threaded through all of them. -/
def permuteAux {p : ℕ} {ε : Type} (sboxF : ZMod p → Outcome ε (ZMod p))
    (params : PoseidonParameters p) (R : Rounds) (st : List (ZMod p) × ℕ) :
    Outcome ε (List (ZMod p) × ℕ) := do
  let st1 ← iterateRound
    (fullRound sboxF params.round_keys params.mds_matrix R.WIDTH)
    (R.FULL_ROUNDS / 2) st
  let st2 ← iterateRound
    (partialRound sboxF params.round_keys params.mds_matrix R.WIDTH)
    R.PARTIAL_ROUNDS st1
  iterateRound
    (fullRound sboxF params.round_keys params.mds_matrix R.WIDTH)
    (R.FULL_ROUNDS / 2) st2

namespace CRH

/-- `CRH::permute` (`src/src/crh/poseidon/mod.rs` lines 102-146): the native
permutation, starting the round-key cursor at 0. -/
def permute (p : ℕ) (R : Rounds) (params : PoseidonParameters p)
    (state : List (ZMod p)) : Outcome PoseidonError (List (ZMod p)) :=
  (permuteAux (PoseidonSbox.apply_sbox R.SBOX) params R (state, 0)).bind fun so =>
    .ok so.1

/-- The zero-initialized width-`W` buffer of `CRH::evaluate`
(`let mut buffer = vec![F::zero(); width]`), overwritten from the decoded
inputs by `buffer.iter_mut().zip(f_inputs)`. -/
def padBuffer (p W : ℕ) (xs : List (ZMod p)) : List (ZMod p) :=
  xs.take W ++ List.replicate (W - xs.length) (0 : ZMod p)

/-- `CRH::evaluate` (`src/src/crh/poseidon/mod.rs` lines 172-194): decode
the bytes, `panic!` when more than `WIDTH` elements were decoded, zero-pad
to `WIDTH`, permute, and `unwrap` element 1 of the result. -/
def evaluate (p L : ℕ) (R : Rounds) (params : PoseidonParameters p)
    (input : List ℕ) : Outcome BoxedError (ZMod p) :=
  (to_field_elements p L input).bind fun f_inputs =>
    if f_inputs.length > R.WIDTH then .abort .inputLen
    else
      ((permute p R params (padBuffer p R.WIDTH f_inputs)).mapErr
          BoxedError.poseidon).bind fun result =>
        unwrapP (result.get? 1)

end CRH

namespace CRHGadget

/-- `CRHGadget::permute` (`src/src/crh/poseidon/constraints.rs` lines
28-78), at the level of the values the circuit variables hold. -/
def permute (p : ℕ) (R : Rounds) (params : PoseidonParameters p)
    (state : List (ZMod p)) : Outcome SynthesisError (List (ZMod p)) :=
  (permuteAux (PoseidonSbox.synthesize_sbox R.SBOX) params R (state, 0)).bind fun so =>
    .ok so.1

/-- `CRHGadget::evaluate` (`src/src/crh/poseidon/constraints.rs` lines
99-124), at the level of the values the circuit variables hold:
`assert_eq!(input.len() / 32, P::WIDTH)` (an abort when it fails), then each
32-byte chunk is turned into a field variable holding
`F::from_le_bytes_mod_order` of the chunk's byte values, then permute and
`unwrap` element 1. -/
def evaluate (p : ℕ) (R : Rounds) (params : PoseidonParameters p)
    (input : List ℕ) : Outcome SynthesisError (ZMod p) :=
  if input.length / 32 = R.WIDTH then
    (permute p R params
        ((chunks 32 input).map (from_le_bytes_mod_order p))).bind fun result =>
      unwrapP (result.get? 1)
  else .abort .assertFail

end CRHGadget

/-! ## The identity hash (`src/src/crh/identity/mod.rs`) -/

namespace IdentityCRH

/-- Identity `CRH::evaluate` (`src/src/crh/identity/mod.rs` lines 24-33):
decode the bytes, `assert!` that exactly one element was decoded (an abort
when not), and return it (`get(0)` with an `IncorrectInputLength` fallback
that the assert makes unreachable). -/
def evaluate (p L : ℕ) (input : List ℕ) : Outcome BoxedError (ZMod p) :=
  (to_field_elements p L input).bind fun f_inputs =>
    if f_inputs.length = 1 then
      match f_inputs.get? 0 with
      | some v => .ok v
      | none => .err (.crypto (.IncorrectInputLength f_inputs.length))
    else .abort .assertFail

end IdentityCRH

/-- Modelled from the spec: the external FieldElement capability's
"fixed-size canonical byte encoding of length `L`" (§3) — the canonical
representative written little-endian in `L` bytes. -/
def encodeF (p L : ℕ) (v : ZMod p) : List ℕ :=
  leBytes L (ZMod.val v)

/-! ## Symbolic constraint-system model for the gadget's input decoding

`CRHGadget::evaluate`'s decoding step allocates circuit variables; claim C2
is about which constraints that step emits, so value-level semantics is not
enough for it.  The model below tracks allocated variables (allocation mode
and prover-assigned value, in allocation order) and accumulated rank-1
constraints. -/

/-- Allocation mode of a circuit variable (`ark_r1cs_std`
`AllocationMode`). -/
inductive AllocMode : Type
  | constant
  | publicInput
  | witness
  deriving DecidableEq, Repr

/-- A linear combination `const + Σ coeff·var` over the field, `var` being a
variable index. -/
structure LinComb (p : ℕ) : Type where
  const : ZMod p
  terms : List (ZMod p × ℕ)
  deriving DecidableEq

def LinComb.eval {p : ℕ} (lc : LinComb p) (a : ℕ → ZMod p) : ZMod p :=
  lc.const + (lc.terms.map fun t => t.1 * a t.2).sum

/-- One rank-1 constraint `A · B = C`. -/
structure Constr (p : ℕ) : Type where
  A : LinComb p
  B : LinComb p
  C : LinComb p
  deriving DecidableEq

def Constr.sat {p : ℕ} (a : ℕ → ZMod p) (c : Constr p) : Prop :=
  c.A.eval a * c.B.eval a = c.C.eval a

instance {p : ℕ} (a : ℕ → ZMod p) (c : Constr p) : Decidable (Constr.sat a c) :=
  inferInstanceAs (Decidable (_ = _))

/-- An assignment satisfies a constraint list when it satisfies every
constraint in it. -/
def satisfies {p : ℕ} (a : ℕ → ZMod p) (cs : List (Constr p)) : Prop :=
  ∀ c ∈ cs, Constr.sat a c

instance {p : ℕ} (a : ℕ → ZMod p) (cs : List (Constr p)) :
    Decidable (satisfies a cs) :=
  List.decidableBAll _ cs

/-- The constraint-system state: allocated variables and accumulated
constraints. -/
structure CSState (p : ℕ) : Type where
  vars : List (AllocMode × ZMod p)
  constraints : List (Constr p)

/-- A byte circuit variable: `UInt8<F>` stores its eight little-endian
Boolean bit variables (here: their indices) together with the concrete byte
value known to the prover (`value()`). -/
structure UInt8V : Type where
  bits : List ℕ
  val : ℕ
  deriving DecidableEq, Repr

/-- A field circuit variable: a constant, a single allocated variable, or a
linear combination of existing variables. -/
inductive FpV (p : ℕ) : Type
  | Constant (c : ZMod p)
  | Var (v : ℕ)
  | Lc (terms : List (ZMod p × ℕ))
  deriving DecidableEq

/-- The value a field variable holds under an assignment of the allocated
variables. -/
def FpV.eval {p : ℕ} (a : ℕ → ZMod p) : FpV p → ZMod p
  | .Constant c => c
  | .Var v => a v
  | .Lc terms => (terms.map fun t => t.1 * a t.2).sum

/-- `AllocatedFp::new_variable(cs, value, AllocationMode::Witness)`: append
a fresh variable carrying the given assigned value; no constraint is
added. -/
def newWitnessVar {p : ℕ} (cs : CSState p) (value : ZMod p) : CSState p × ℕ :=
  ({ vars := cs.vars ++ [(.witness, value)], constraints := cs.constraints },
    cs.vars.length)

/-- The input-decoding step of `CRHGadget::evaluate`
(`src/src/crh/poseidon/constraints.rs` lines 107-120), in the symbolic
model: for every 32-byte chunk, read the byte variables' concrete values
(`x.value().unwrap()`) and allocate a fresh Witness-mode field variable
assigned `F::from_le_bytes_mod_order` of those values. -/
def poseidonDecode {p : ℕ} (cs : CSState p) (input : List UInt8V) :
    CSState p × List (FpV p) :=
  (chunks 32 input).foldl
    (fun acc chunk =>
      let value := from_le_bytes_mod_order p (chunk.map UInt8V.val)
      let alloc := newWitnessVar acc.1 value
      (alloc.1, acc.2 ++ [FpV.Var alloc.2]))
    (cs, [])

/-- `to_field_var_elements` (`src/src/lib.rs` lines 79-89), in the symbolic
model: each `L`-byte chunk is flattened into its little-endian bit variables
(`chunk.to_bits_le()`) and recombined by `Boolean::le_bits_to_fp_var` into
the linear combination `Σ 2^k · bit_k` over the existing bit variables — no
new allocation, no new constraint. -/
def to_field_var_elements (p L : ℕ) (input : List UInt8V) : List (FpV p) :=
  (chunks L input).map fun chunk =>
    FpV.Lc ((chunk.map UInt8V.bits).join.enum.map fun bi =>
      ((2 : ZMod p) ^ bi.1, bi.2))

/-- The little-endian value of a list of bit variables under an assignment:
`Σ_k 2^k · a(bits[k])`. -/
def bitsLeVal {p : ℕ} (a : ℕ → ZMod p) (bits : List ℕ) : ZMod p :=
  ((List.range bits.length).map fun k =>
    (2 : ZMod p) ^ k * a (bits.getD k 0)).sum

/-- The little-endian value of a list of byte variables under an assignment:
`Σ_i 256^i ·` (the bit value of byte `i`). -/
def bytesLeValUnder {p : ℕ} (a : ℕ → ZMod p) (bytes : List UInt8V) : ZMod p :=
  ((List.range bytes.length).map fun i =>
    (256 : ZMod p) ^ i * bitsLeVal a ((bytes.getD i ⟨[], 0⟩).bits)).sum

/-- Concrete 32-byte input for C2: byte `i` owns bit variables
`8i .. 8i+7`; byte 0 has value 1, the others 0. -/
def c2Input : List UInt8V :=
  (List.range 32).map fun i =>
    ⟨(List.range 8).map fun j => 8 * i + j, if i = 0 then 1 else 0⟩

/-- Concrete initial constraint system for C2 over `ZMod 11`: the 256 bit
variables, Witness mode, bit 0 assigned 1 and the rest 0, each carrying its
booleanity constraint `b · (1 - b) = 0`. -/
def c2CS : CSState 11 :=
  { vars := (List.range 256).map fun i =>
      (AllocMode.witness, if i = 0 then 1 else 0),
    constraints := (List.range 256).map fun i =>
      ⟨⟨0, [(1, i)]⟩, ⟨1, [(-1, i)]⟩, ⟨0, []⟩⟩ }

/-- An assignment keeping all 256 bit variables at their values but giving
the freshly decoded variable (index 256) the value 3 instead of the byte
value 1. -/
def c2Assign : ℕ → ZMod 11 := fun i =>
  if i = 256 then 3 else if i = 0 then 1 else 0

/-! ## General facts about the embedded operations -/

namespace Outcome

@[simp] theorem bind_ok {ε α β : Type} (a : α) (f : α → Outcome ε β) :
    bind (ok a) f = f a := rfl

@[simp] theorem bind_err {ε α β : Type} (e : ε) (f : α → Outcome ε β) :
    bind (err e) f = err e := rfl

@[simp] theorem bind_abort {ε α β : Type} (k : AbortKind) (f : α → Outcome ε β) :
    bind (abort k) f = abort k := rfl

@[simp] theorem monad_bind_eq_bind {ε α β : Type} (o : Outcome ε α) (f : α → Outcome ε β) :
    (o >>= f) = bind o f := rfl

@[simp] theorem pure_eq_ok {ε α : Type} (a : α) : (pure a : Outcome ε α) = ok a := rfl

theorem bind_eq_ok {ε α β : Type} {o : Outcome ε α} {f : α → Outcome ε β} {b : β}
    (h : bind o f = ok b) : ∃ a, o = ok a ∧ f a = ok b := by
  cases o with
  | ok a => exact ⟨a, rfl, h⟩
  | err e => simp [bind] at h
  | abort k => simp [bind] at h

end Outcome

@[simp] theorem idxP_eq_ok {ε α : Type} {l : List α} {i : ℕ} {a : α} :
    (idxP l i : Outcome ε α) = .ok a ↔ l.get? i = some a := by
  unfold idxP
  cases h : l.get? i <;> simp_all

theorem idxP_of_lt {ε α : Type} {l : List α} {i : ℕ} (h : i < l.length) :
    (idxP l i : Outcome ε α) = .ok (l.get ⟨i, h⟩) := by
  unfold idxP
  rw [List.get?_eq_get h]

@[simp] theorem unwrapP_some {ε α : Type} (a : α) : (unwrapP (some a) : Outcome ε α) = .ok a := rfl

@[simp] theorem unwrapP_none {ε α : Type} : (unwrapP (none : Option α) : Outcome ε α) = .abort .unwrapNone := rfl

@[simp] theorem leVal_nil : leVal [] = 0 := rfl

@[simp] theorem leVal_cons (b : ℕ) (bs : List ℕ) : leVal (b :: bs) = b + 256 * leVal bs := rfl

@[simp] theorem leBytes_length (k n : ℕ) : (leBytes k n).length = k := by
  induction k generalizing n with
  | zero => rfl
  | succ k ih => simp [leBytes, ih]

theorem leVal_leBytes (k n : ℕ) : leVal (leBytes k n) = n % 256 ^ k := by
  induction k generalizing n with
  | zero => simp [leBytes, Nat.mod_one]
  | succ k ih =>
      simp only [leBytes, leVal_cons, ih]
      rw [pow_succ', Nat.mod_mul]

theorem leBytes_leVal (bs : List ℕ) (hb : ∀ b ∈ bs, b < 256) :
    leBytes bs.length (leVal bs) = bs := by
  induction bs with
  | nil => rfl
  | cons b bs ih =>
      have hblt : b < 256 := hb b (List.mem_cons_self _ _)
      have h1 : (b + 256 * leVal bs) % 256 = b := by
        rw [Nat.add_mul_mod_self_left, Nat.mod_eq_of_lt hblt]
      have h2 : (b + 256 * leVal bs) / 256 = leVal bs := by
        rw [Nat.add_mul_div_left _ _ (by norm_num : (0:ℕ) < 256),
          Nat.div_eq_of_lt hblt]
        simp
      simp only [List.length_cons, leBytes, leVal_cons, h1, h2]
      rw [ih (fun x hx => hb x (List.mem_cons_of_mem _ hx))]

theorem leBytes_lt (k n : ℕ) : ∀ b ∈ leBytes k n, b < 256 := by
  induction k generalizing n with
  | zero => simp [leBytes]
  | succ k ih =>
      intro b hb
      simp only [leBytes, List.mem_cons] at hb
      rcases hb with h | h
      · subst h; exact Nat.mod_lt _ (by norm_num)
      · exact ih _ b h

@[simp] theorem chunks_nil {α : Type} (n : ℕ) : chunks n ([] : List α) = [] := by
  cases n <;> simp [chunks, chunksAux]

theorem chunksAux_fuel {α : Type} (n : ℕ) :
    ∀ (f g : ℕ) (l : List α), l.length ≤ f → l.length ≤ g →
      chunksAux (n + 1) f l = chunksAux (n + 1) g l := by
  intro f
  induction f with
  | zero =>
      intro g l hf _
      cases l with
      | nil => cases g <;> rfl
      | cons a t => simp at hf
  | succ f ih =>
      intro g l hf hg
      cases l with
      | nil => cases g <;> rfl
      | cons a t =>
          cases g with
          | zero => simp at hg
          | succ g =>
              simp only [chunksAux]
              rw [ih g ((a :: t).drop (n + 1))
                (by simp only [List.length_drop, List.length_cons] at hf ⊢; omega)
                (by simp only [List.length_drop, List.length_cons] at hg ⊢; omega)]

theorem chunks_cons {α : Type} (n : ℕ) (a : α) (l : List α) :
    chunks (n + 1) (a :: l) =
      (a :: l).take (n + 1) :: chunks (n + 1) ((a :: l).drop (n + 1)) := by
  show chunksAux (n + 1) (a :: l).length (a :: l) = _
  have hlen : (a :: l).length = l.length + 1 := rfl
  rw [hlen]
  simp only [chunksAux]
  rw [chunksAux_fuel n l.length ((a :: l).drop (n + 1)).length ((a :: l).drop (n + 1))
    (by simp only [List.length_drop, List.length_cons]; omega) le_rfl]
  rfl

/-- A nonempty list of length at most the chunk size is a single chunk. -/
theorem chunks_eq_single {α : Type} {n : ℕ} {l : List α} (h0 : l ≠ [])
    (hle : l.length ≤ n + 1) : chunks (n + 1) l = [l] := by
  cases l with
  | nil => exact absurd rfl h0
  | cons a t =>
      rw [chunks_cons]
      have hdrop : (a :: t).drop (n + 1) = [] := by
        apply List.drop_eq_nil_of_le
        simpa using hle
      have htake : (a :: t).take (n + 1) = a :: t :=
        List.take_of_length_le (by simpa using hle)
      rw [hdrop, htake, chunks_nil]

/-- The number of chunks is the length divided by the chunk size, rounded up. -/
theorem chunks_length {α : Type} (n : ℕ) (l : List α) :
    (chunks (n + 1) l).length = (l.length + n) / (n + 1) := by
  suffices H : ∀ (m : ℕ) (l : List α), l.length = m →
      (chunks (n + 1) l).length = (l.length + n) / (n + 1) from H l.length l rfl
  intro m
  induction m using Nat.strong_induction_on with
  | _ m ih =>
    intro l hm
    cases l with
    | nil =>
        simp only [chunks_nil, List.length_nil, List.length]
        exact (Nat.div_eq_of_lt (by omega)).symm
    | cons a t =>
        rw [chunks_cons]
        have hdlen : ((a :: t).drop (n + 1)).length = t.length - n := by
          simp only [List.length_drop, List.length_cons]
          omega
        have hrec := ih ((a :: t).drop (n + 1)).length
          (by rw [hdlen]; subst hm; simp only [List.length_cons]; omega)
          ((a :: t).drop (n + 1)) rfl
        simp only [List.length_cons, hrec, hdlen]
        have hRHS : (t.length + 1 + n) / (n + 1) = t.length / (n + 1) + 1 := by
          rw [show t.length + 1 + n = t.length + (n + 1) by omega,
            Nat.add_div_right _ (by omega)]
        rw [hRHS]
        rcases Nat.lt_or_ge t.length n with hlt | hge
        · rw [show t.length - n + n = n by omega, Nat.div_eq_of_lt (by omega),
            Nat.div_eq_of_lt (by omega)]
        · rw [show t.length - n + n = t.length by omega]


theorem Outcome.bind_assoc {ε α β γ : Type} (o : Outcome ε α)
    (f : α → Outcome ε β) (g : β → Outcome ε γ) :
    (o.bind f).bind g = o.bind fun a => (f a).bind g := by
  cases o <;> rfl

theorem unwrapP_ne_err {ε α : Type} (o : Option α) (e : ε) :
    unwrapP o ≠ .err e := by
  cases o <;> simp [unwrapP]

theorem to_field_elements_err_shape {p L : ℕ} {bytes : List ℕ} {e : BoxedError}
    (h : to_field_elements p L bytes = .err e) : e = .deser := by
  unfold to_field_elements at h
  cases hc : collectRead p (chunks L bytes) <;> rw [hc] at h <;> simp_all

theorem to_field_elements_ne_abort {p L : ℕ} (bytes : List ℕ) (k : AbortKind) :
    to_field_elements p L bytes ≠ .abort k := by
  unfold to_field_elements
  cases hc : collectRead p (chunks L bytes) <;> simp

/-- Errors surfacing from the native `CRH::evaluate` are deserialization
failures or boxed `PoseidonError`s — never a `CryptoError`. -/
theorem CRH.evaluate_err_shape {p L : ℕ} {R : Rounds} {params : PoseidonParameters p}
    {input : List ℕ} {e : BoxedError}
    (h : CRH.evaluate p L R params input = .err e) :
    e = .deser ∨ ∃ pe, e = .poseidon pe := by
  unfold CRH.evaluate at h
  cases htf : to_field_elements p L input with
  | ok fs =>
      rw [htf] at h
      simp only [Outcome.bind_ok] at h
      by_cases hlen : fs.length > R.WIDTH
      · rw [if_pos hlen] at h; cases h
      · rw [if_neg hlen] at h
        cases hperm : CRH.permute p R params (CRH.padBuffer p R.WIDTH fs) with
        | ok res =>
            rw [hperm] at h
            simp only [Outcome.mapErr, Outcome.bind_ok] at h
            exact absurd h (unwrapP_ne_err _ _)
        | err pe =>
            rw [hperm] at h
            simp only [Outcome.mapErr, Outcome.bind_err] at h
            cases h
            exact Or.inr ⟨pe, rfl⟩
        | abort k =>
            rw [hperm] at h
            simp only [Outcome.mapErr, Outcome.bind_abort] at h
            cases h
  | err e' =>
      rw [htf] at h
      simp only [Outcome.bind_err] at h
      cases h
      exact Or.inl (to_field_elements_err_shape htf)
  | abort k => exact absurd htf (to_field_elements_ne_abort _ _)

/-! ## Abort propagation through the permutation -/

theorem Outcome.bind_ne_abort {ε α β : Type} {o : Outcome ε α}
    {f : α → Outcome ε β} {k : AbortKind} (ho : o ≠ .abort k)
    (hf : ∀ a, f a ≠ .abort k) : o.bind f ≠ .abort k := by
  cases o with
  | ok a => simpa [Outcome.bind] using hf a
  | err e => simp [Outcome.bind]
  | abort k' => simpa [Outcome.bind] using ho

theorem foldl_bind_ne_abort {ε α ι : Type} {k : AbortKind} (l : List ι)
    (g : ι → α → Outcome ε α) (hg : ∀ i a, g i a ≠ .abort k) :
    ∀ init : Outcome ε α, init ≠ .abort k →
      l.foldl (fun (acc : Outcome ε α) i => acc.bind (g i)) init ≠ .abort k := by
  induction l with
  | nil => intro init h; simpa using h
  | cons i t ih =>
      intro init h
      simp only [List.foldl_cons]
      exact ih _ (Outcome.bind_ne_abort h (hg i))

theorem idxP_ne_abort {ε α : Type} (l : List α) (i : ℕ) {k : AbortKind}
    (hk : k ≠ .indexOOB) : (idxP l i : Outcome ε α) ≠ .abort k := by
  unfold idxP
  cases l.get? i with
  | some a => simp
  | none =>
      intro hcontra
      injection hcontra with h
      exact hk h.symm

theorem unwrapP_ne_abort {ε α : Type} (o : Option α) {k : AbortKind}
    (hk : k ≠ .unwrapNone) : (unwrapP o : Outcome ε α) ≠ .abort k := by
  cases o with
  | some a => simp
  | none =>
      intro hcontra
      injection hcontra with h
      exact hk h.symm

theorem apply_sbox_ne_abort {p : ℕ} (s : PoseidonSbox) (x : ZMod p)
    (k : AbortKind) : PoseidonSbox.apply_sbox s x ≠ .abort k := by
  cases s with
  | Exponentiation e =>
      rcases e with _ | _ | _ | _ | _ | _ | e <;> simp [PoseidonSbox.apply_sbox]
  | Inverse =>
      by_cases hx : x = 0 <;> simp [PoseidonSbox.apply_sbox, hx]

theorem synthesize_sbox_ne_abort {p : ℕ} (s : PoseidonSbox) (x : ZMod p)
    {k : AbortKind} (hk : k ≠ .unwrapNone) :
    PoseidonSbox.synthesize_sbox s x ≠ .abort k := by
  cases s with
  | Exponentiation e =>
      rcases e with _ | _ | _ | _ | _ | _ | e <;> simp [PoseidonSbox.synthesize_sbox]
  | Inverse =>
      by_cases hx : x = 0
      · intro hcontra
        simp only [PoseidonSbox.synthesize_sbox, if_pos hx] at hcontra
        injection hcontra with h
        exact hk h.symm
      · simp [PoseidonSbox.synthesize_sbox, hx]

theorem sboxStep_ne_abort {p : ℕ} {ε : Type} {sboxF : ZMod p → Outcome ε (ZMod p)}
    (keys : List (ZMod p)) (i : ℕ) (so : List (ZMod p) × ℕ) {k : AbortKind}
    (hk : k ≠ .indexOOB) (hsb : ∀ x, sboxF x ≠ .abort k) :
    sboxStep sboxF keys i so ≠ .abort k := by
  unfold sboxStep
  simp only [Outcome.monad_bind_eq_bind, Outcome.pure_eq_ok]
  refine Outcome.bind_ne_abort (idxP_ne_abort _ _ hk) fun a => ?_
  refine Outcome.bind_ne_abort (idxP_ne_abort _ _ hk) fun x => ?_
  refine Outcome.bind_ne_abort (hsb _) fun y => ?_
  simp

theorem sboxLayer_ne_abort {p : ℕ} {ε : Type} {sboxF : ZMod p → Outcome ε (ZMod p)}
    (keys : List (ZMod p)) (width : ℕ) (st : List (ZMod p) × ℕ) {k : AbortKind}
    (hk : k ≠ .indexOOB) (hsb : ∀ x, sboxF x ≠ .abort k) :
    sboxLayer sboxF keys width st ≠ .abort k := by
  unfold sboxLayer
  exact foldl_bind_ne_abort _ _ (fun i a => sboxStep_ne_abort keys i a hk hsb)
    _ (by simp)

theorem keyAddStep_ne_abort {p : ℕ} {ε : Type} (keys : List (ZMod p)) (i : ℕ)
    (so : List (ZMod p) × ℕ) {k : AbortKind} (hk : k ≠ .indexOOB) :
    (keyAddStep keys i so : Outcome ε _) ≠ .abort k := by
  unfold keyAddStep
  simp only [Outcome.monad_bind_eq_bind, Outcome.pure_eq_ok]
  refine Outcome.bind_ne_abort (idxP_ne_abort _ _ hk) fun a => ?_
  refine Outcome.bind_ne_abort (idxP_ne_abort _ _ hk) fun x => ?_
  simp

theorem keyAddLayer_ne_abort {p : ℕ} {ε : Type} (keys : List (ZMod p)) (width : ℕ)
    (st : List (ZMod p) × ℕ) {k : AbortKind} (hk : k ≠ .indexOOB) :
    (keyAddLayer keys width st : Outcome ε _) ≠ .abort k := by
  unfold keyAddLayer
  exact foldl_bind_ne_abort _ _ (fun i a => keyAddStep_ne_abort keys i a hk)
    _ (by simp)

theorem linearRowSum_ne_abort {p : ℕ} {ε : Type} (state : List (ZMod p))
    (mds : List (List (ZMod p))) (i : ℕ) {k : AbortKind} (hk : k ≠ .indexOOB) :
    (linearRowSum state mds i : Outcome ε _) ≠ .abort k := by
  unfold linearRowSum
  refine foldl_bind_ne_abort _ _ (fun j sc => ?_) _ (by simp)
  simp only [Outcome.monad_bind_eq_bind, Outcome.pure_eq_ok]
  refine Outcome.bind_ne_abort (idxP_ne_abort _ _ hk) fun row => ?_
  refine Outcome.bind_ne_abort (idxP_ne_abort _ _ hk) fun mij => ?_
  refine Outcome.bind_ne_abort (idxP_ne_abort _ _ hk) fun xj => ?_
  simp

theorem apply_linear_layer_ne_abort {p : ℕ} {ε : Type} (state : List (ZMod p))
    (mds : List (List (ZMod p))) {k : AbortKind} (hk : k ≠ .indexOOB) :
    (apply_linear_layer state mds : Outcome ε _) ≠ .abort k := by
  unfold apply_linear_layer
  refine foldl_bind_ne_abort _ _ (fun i ns => ?_) _ (by simp)
  refine Outcome.bind_ne_abort (linearRowSum_ne_abort _ _ _ hk) fun sc => ?_
  simp

theorem fullRound_ne_abort {p : ℕ} {ε : Type} {sboxF : ZMod p → Outcome ε (ZMod p)}
    (keys : List (ZMod p)) (mds : List (List (ZMod p))) (width : ℕ)
    (st : List (ZMod p) × ℕ) {k : AbortKind}
    (hk : k ≠ .indexOOB) (hsb : ∀ x, sboxF x ≠ .abort k) :
    fullRound sboxF keys mds width st ≠ .abort k := by
  unfold fullRound
  simp only [Outcome.monad_bind_eq_bind, Outcome.pure_eq_ok]
  refine Outcome.bind_ne_abort (sboxLayer_ne_abort _ _ _ hk hsb) fun so => ?_
  refine Outcome.bind_ne_abort (apply_linear_layer_ne_abort _ _ hk) fun s2 => ?_
  simp

theorem partialRound_ne_abort {p : ℕ} {ε : Type} {sboxF : ZMod p → Outcome ε (ZMod p)}
    (keys : List (ZMod p)) (mds : List (List (ZMod p))) (width : ℕ)
    (st : List (ZMod p) × ℕ) {k : AbortKind}
    (hk : k ≠ .indexOOB) (hsb : ∀ x, sboxF x ≠ .abort k) :
    partialRound sboxF keys mds width st ≠ .abort k := by
  unfold partialRound
  simp only [Outcome.monad_bind_eq_bind, Outcome.pure_eq_ok]
  refine Outcome.bind_ne_abort (keyAddLayer_ne_abort _ _ _ hk) fun so => ?_
  refine Outcome.bind_ne_abort (idxP_ne_abort _ _ hk) fun x0 => ?_
  refine Outcome.bind_ne_abort (hsb _) fun y0 => ?_
  refine Outcome.bind_ne_abort (apply_linear_layer_ne_abort _ _ hk) fun s2 => ?_
  simp

theorem iterateRound_ne_abort {ε α : Type} {f : α → Outcome ε α} {k : AbortKind}
    (hf : ∀ a, f a ≠ .abort k) :
    ∀ (n : ℕ) (st : α), iterateRound f n st ≠ .abort k := by
  intro n
  induction n with
  | zero => intro st; simp [iterateRound]
  | succ n ih =>
      intro st
      unfold iterateRound
      exact Outcome.bind_ne_abort (hf st) ih

theorem permuteAux_ne_abort {p : ℕ} {ε : Type} {sboxF : ZMod p → Outcome ε (ZMod p)}
    (params : PoseidonParameters p) (R : Rounds) (st : List (ZMod p) × ℕ)
    {k : AbortKind} (hk : k ≠ .indexOOB) (hsb : ∀ x, sboxF x ≠ .abort k) :
    permuteAux sboxF params R st ≠ .abort k := by
  unfold permuteAux
  simp only [Outcome.monad_bind_eq_bind]
  refine Outcome.bind_ne_abort
    (iterateRound_ne_abort (fun a => fullRound_ne_abort _ _ _ _ hk hsb) _ _)
    fun st1 => ?_
  refine Outcome.bind_ne_abort
    (iterateRound_ne_abort (fun a => partialRound_ne_abort _ _ _ _ hk hsb) _ _)
    fun st2 => ?_
  exact iterateRound_ne_abort (fun a => fullRound_ne_abort _ _ _ _ hk hsb) _ _

theorem CRH.permute_native_ne_abort {p : ℕ} (R : Rounds) (params : PoseidonParameters p)
    (state : List (ZMod p)) {k : AbortKind} (hk : k ≠ .indexOOB) :
    CRH.permute p R params state ≠ .abort k := by
  unfold CRH.permute
  exact Outcome.bind_ne_abort
    (permuteAux_ne_abort _ _ _ hk (fun x => apply_sbox_ne_abort _ _ _))
    (fun so => by simp)

theorem CRHGadget.permute_gadget_ne_abort {p : ℕ} (R : Rounds)
    (params : PoseidonParameters p) (state : List (ZMod p)) {k : AbortKind}
    (hk : k ≠ .indexOOB) (hk2 : k ≠ .unwrapNone) :
    CRHGadget.permute p R params state ≠ .abort k := by
  unfold CRHGadget.permute
  exact Outcome.bind_ne_abort
    (permuteAux_ne_abort _ _ _ hk (fun x => synthesize_sbox_ne_abort _ _ hk2))
    (fun so => by simp)

theorem Outcome.mapErr_ne_abort {ε ε' α : Type} {o : Outcome ε α}
    (f : ε → ε') {k : AbortKind} (ho : o ≠ .abort k) :
    o.mapErr f ≠ .abort k := by
  cases o <;> simp_all [Outcome.mapErr]

/-! ## Invariants and measures over the permutation folds -/

theorem foldl_bind_err {ε α ι : Type} (l : List ι) (g : ι → α → Outcome ε α)
    (e : ε) : l.foldl (fun (acc : Outcome ε α) i => acc.bind (g i)) (.err e) = .err e := by
  induction l with
  | nil => rfl
  | cons i t ih => simpa [List.foldl_cons, Outcome.bind] using ih

theorem foldl_bind_abort {ε α ι : Type} (l : List ι) (g : ι → α → Outcome ε α)
    (k : AbortKind) : l.foldl (fun (acc : Outcome ε α) i => acc.bind (g i)) (.abort k) = .abort k := by
  induction l with
  | nil => rfl
  | cons i t ih => simpa [List.foldl_cons, Outcome.bind] using ih

/-- A successful fold of bind-steps preserves any property each successful
step preserves. -/
theorem foldl_bind_invariant {ε α ι : Type} {P : α → Prop} (l : List ι)
    (g : ι → α → Outcome ε α)
    (hg : ∀ i a a', P a → g i a = .ok a' → P a') :
    ∀ (init : α) (out : α), P init →
      l.foldl (fun (acc : Outcome ε α) i => acc.bind (g i)) (.ok init) = .ok out → P out := by
  induction l with
  | nil =>
      intro init out hinit h
      simp only [List.foldl_nil] at h
      cases h
      exact hinit
  | cons i t ih =>
      intro init out hinit h
      simp only [List.foldl_cons, Outcome.bind_ok] at h
      cases hgi : g i init with
      | ok a' => rw [hgi] at h; exact ih a' out (hg i init a' hinit hgi) h
      | err e => rw [hgi] at h; rw [foldl_bind_err] at h; cases h
      | abort k => rw [hgi] at h; rw [foldl_bind_abort] at h; cases h

/-- A successful fold of bind-steps each of which increases a measure by one
increases the measure by the list length. -/
theorem foldl_bind_measure {ε α ι : Type} (μ : α → ℕ) (l : List ι)
    (g : ι → α → Outcome ε α)
    (hg : ∀ i a a', g i a = .ok a' → μ a' = μ a + 1) :
    ∀ (init : α) (out : α),
      l.foldl (fun (acc : Outcome ε α) i => acc.bind (g i)) (.ok init) = .ok out →
      μ out = μ init + l.length := by
  induction l with
  | nil =>
      intro init out h
      simp only [List.foldl_nil] at h
      cases h
      simp
  | cons i t ih =>
      intro init out h
      simp only [List.foldl_cons, Outcome.bind_ok] at h
      cases hgi : g i init with
      | ok a' =>
          rw [hgi] at h
          have h1 := ih a' out h
          have h2 := hg i init a' hgi
          simp only [List.length_cons]
          omega
      | err e => rw [hgi] at h; rw [foldl_bind_err] at h; cases h
      | abort k => rw [hgi] at h; rw [foldl_bind_abort] at h; cases h

theorem Outcome.mapErr_eq_ok {ε ε' α : Type} {o : Outcome ε α} {f : ε → ε'}
    {a : α} (h : o.mapErr f = .ok a) : o = .ok a := by
  cases o with
  | ok b => simpa [Outcome.mapErr] using h
  | err e => simp [Outcome.mapErr] at h
  | abort k => simp [Outcome.mapErr] at h

theorem sboxStep_shape {p : ℕ} {ε : Type} {sboxF : ZMod p → Outcome ε (ZMod p)}
    {keys : List (ZMod p)} {i : ℕ} {so so' : List (ZMod p) × ℕ}
    (h : sboxStep sboxF keys i so = .ok so') :
    so'.1.length = so.1.length ∧ so'.2 = so.2 + 1 := by
  unfold sboxStep at h
  simp only [Outcome.monad_bind_eq_bind, Outcome.pure_eq_ok] at h
  rcases Outcome.bind_eq_ok h with ⟨k, _, h⟩
  rcases Outcome.bind_eq_ok h with ⟨x, _, h⟩
  rcases Outcome.bind_eq_ok h with ⟨y, _, h⟩
  cases h
  simp [List.length_set]

theorem keyAddStep_shape {p : ℕ} {ε : Type} {keys : List (ZMod p)} {i : ℕ}
    {so so' : List (ZMod p) × ℕ}
    (h : (keyAddStep keys i so : Outcome ε _) = .ok so') :
    so'.1.length = so.1.length ∧ so'.2 = so.2 + 1 := by
  unfold keyAddStep at h
  simp only [Outcome.monad_bind_eq_bind, Outcome.pure_eq_ok] at h
  rcases Outcome.bind_eq_ok h with ⟨k, _, h⟩
  rcases Outcome.bind_eq_ok h with ⟨x, _, h⟩
  cases h
  simp [List.length_set]

theorem sboxLayer_shape {p : ℕ} {ε : Type} {sboxF : ZMod p → Outcome ε (ZMod p)}
    {keys : List (ZMod p)} {width : ℕ} {st st' : List (ZMod p) × ℕ}
    (h : sboxLayer sboxF keys width st = .ok st') :
    st'.1.length = st.1.length ∧ st'.2 = st.2 + width := by
  unfold sboxLayer at h
  constructor
  · exact foldl_bind_invariant (P := fun so => so.1.length = st.1.length) _ _
      (fun i a a' ha hstep => (sboxStep_shape hstep).1.trans ha) st st' rfl h
  · have := foldl_bind_measure (μ := fun so => so.2) _ _
      (fun i a a' hstep => (sboxStep_shape hstep).2) st st' h
    simpa using this

theorem keyAddLayer_shape {p : ℕ} {ε : Type} {keys : List (ZMod p)} {width : ℕ}
    {st st' : List (ZMod p) × ℕ}
    (h : (keyAddLayer keys width st : Outcome ε _) = .ok st') :
    st'.1.length = st.1.length ∧ st'.2 = st.2 + width := by
  unfold keyAddLayer at h
  constructor
  · exact foldl_bind_invariant (P := fun so => so.1.length = st.1.length) _ _
      (fun i a a' ha hstep => (keyAddStep_shape hstep).1.trans ha) st st' rfl h
  · have := foldl_bind_measure (μ := fun so => so.2) _ _
      (fun i a a' hstep => (keyAddStep_shape hstep).2) st st' h
    simpa using this

theorem apply_linear_layer_length {p : ℕ} {ε : Type} {state : List (ZMod p)}
    {mds : List (List (ZMod p))} {s' : List (ZMod p)}
    (h : (apply_linear_layer state mds : Outcome ε _) = .ok s') :
    s'.length = state.length := by
  unfold apply_linear_layer at h
  have := foldl_bind_measure (fun ns : List (ZMod p) => ns.length)
    (List.range state.length)
    (fun i new_state =>
      (linearRowSum state mds i).bind fun sc => pure (new_state ++ [sc]))
    (fun i a a' hstep => by
      rcases Outcome.bind_eq_ok hstep with ⟨sc, _, hp⟩
      simp only [Outcome.pure_eq_ok] at hp
      cases hp
      simp)
    [] s' h
  simpa using this

theorem fullRound_shape {p : ℕ} {ε : Type} {sboxF : ZMod p → Outcome ε (ZMod p)}
    {keys : List (ZMod p)} {mds : List (List (ZMod p))} {width : ℕ}
    {st st' : List (ZMod p) × ℕ}
    (h : fullRound sboxF keys mds width st = .ok st') :
    st'.1.length = st.1.length ∧ st'.2 = st.2 + width := by
  unfold fullRound at h
  simp only [Outcome.monad_bind_eq_bind, Outcome.pure_eq_ok] at h
  rcases Outcome.bind_eq_ok h with ⟨so, hso, h⟩
  rcases Outcome.bind_eq_ok h with ⟨s2, hs2, h⟩
  cases h
  have h1 := sboxLayer_shape hso
  have h2 := apply_linear_layer_length hs2
  exact ⟨h2.trans h1.1, h1.2⟩

theorem partialRound_shape {p : ℕ} {ε : Type} {sboxF : ZMod p → Outcome ε (ZMod p)}
    {keys : List (ZMod p)} {mds : List (List (ZMod p))} {width : ℕ}
    {st st' : List (ZMod p) × ℕ}
    (h : partialRound sboxF keys mds width st = .ok st') :
    st'.1.length = st.1.length ∧ st'.2 = st.2 + width := by
  unfold partialRound at h
  simp only [Outcome.monad_bind_eq_bind, Outcome.pure_eq_ok] at h
  rcases Outcome.bind_eq_ok h with ⟨so, hso, h⟩
  rcases Outcome.bind_eq_ok h with ⟨x0, _, h⟩
  rcases Outcome.bind_eq_ok h with ⟨y0, _, h⟩
  rcases Outcome.bind_eq_ok h with ⟨s2, hs2, h⟩
  cases h
  have h1 := keyAddLayer_shape hso
  have h2 := apply_linear_layer_length hs2
  constructor
  · calc s2.length = (so.1.set 0 y0).length := h2
      _ = so.1.length := by simp [List.length_set]
      _ = st.1.length := h1.1
  · exact h1.2

theorem iterateRound_invariant {ε α : Type} {P : α → Prop} {f : α → Outcome ε α}
    (hf : ∀ a a', P a → f a = .ok a' → P a') :
    ∀ (n : ℕ) (a out : α), P a → iterateRound f n a = .ok out → P out := by
  intro n
  induction n with
  | zero =>
      intro a out ha h
      unfold iterateRound at h
      cases h
      exact ha
  | succ n ih =>
      intro a out ha h
      unfold iterateRound at h
      rcases Outcome.bind_eq_ok h with ⟨b, hb, h⟩
      exact ih b out (hf a b ha hb) h

theorem iterateRound_measure {ε α : Type} (μ : α → ℕ) {f : α → Outcome ε α}
    (d : ℕ) (hf : ∀ a a', f a = .ok a' → μ a' = μ a + d) :
    ∀ (n : ℕ) (a out : α), iterateRound f n a = .ok out →
      μ out = μ a + n * d := by
  intro n
  induction n with
  | zero =>
      intro a out h
      unfold iterateRound at h
      cases h
      simp
  | succ n ih =>
      intro a out h
      unfold iterateRound at h
      rcases Outcome.bind_eq_ok h with ⟨b, hb, h⟩
      have h1 := ih b out h
      have h2 := hf a b hb
      rw [h1, h2]
      ring

/-- A successful `permuteAux` run preserves the state width and advances the
round-key cursor by exactly `WIDTH` per round over all
`FULL_ROUNDS/2 + PARTIAL_ROUNDS + FULL_ROUNDS/2` rounds. -/
theorem permuteAux_shape {p : ℕ} {ε : Type} {sboxF : ZMod p → Outcome ε (ZMod p)}
    {params : PoseidonParameters p} {R : Rounds} {st st' : List (ZMod p) × ℕ}
    (h : permuteAux sboxF params R st = .ok st') :
    st'.1.length = st.1.length ∧
      st'.2 = st.2 +
        (R.FULL_ROUNDS / 2 + R.PARTIAL_ROUNDS + R.FULL_ROUNDS / 2) * R.WIDTH := by
  unfold permuteAux at h
  simp only [Outcome.monad_bind_eq_bind] at h
  rcases Outcome.bind_eq_ok h with ⟨st1, h1, h⟩
  rcases Outcome.bind_eq_ok h with ⟨st2, h2, h3⟩
  have L1 := iterateRound_invariant (P := fun so => so.1.length = st.1.length)
    (fun a a' ha hr => (fullRound_shape hr).1.trans ha) _ _ _ rfl h1
  have L2 := iterateRound_invariant (P := fun so => so.1.length = st.1.length)
    (fun a a' ha hr => (partialRound_shape hr).1.trans ha) _ _ _ L1 h2
  have L3 := iterateRound_invariant (P := fun so => so.1.length = st.1.length)
    (fun a a' ha hr => (fullRound_shape hr).1.trans ha) _ _ _ L2 h3
  have M1 : st1.2 = st.2 + R.FULL_ROUNDS / 2 * R.WIDTH := by
    simpa using iterateRound_measure (μ := fun so => so.2) R.WIDTH
      (fun a a' hr => (fullRound_shape hr).2) _ _ _ h1
  have M2 : st2.2 = st1.2 + R.PARTIAL_ROUNDS * R.WIDTH := by
    simpa using iterateRound_measure (μ := fun so => so.2) R.WIDTH
      (fun a a' hr => (partialRound_shape hr).2) _ _ _ h2
  have M3 : st'.2 = st2.2 + R.FULL_ROUNDS / 2 * R.WIDTH := by
    simpa using iterateRound_measure (μ := fun so => so.2) R.WIDTH
      (fun a a' hr => (fullRound_shape hr).2) _ _ _ h3
  constructor
  · exact L3
  · rw [M3, M2, M1]
    ring

/-- A successful native permutation preserves the state width. -/
theorem CRH.permute_length {p : ℕ} {R : Rounds} {params : PoseidonParameters p}
    {state s : List (ZMod p)} (h : CRH.permute p R params state = .ok s) :
    s.length = state.length := by
  unfold CRH.permute at h
  rcases Outcome.bind_eq_ok h with ⟨so, hso, h⟩
  cases h
  exact (permuteAux_shape hso).1

theorem CRH.padBuffer_length {p W : ℕ} {xs : List (ZMod p)}
    (h : xs.length ≤ W) : (CRH.padBuffer p W xs).length = W := by
  unfold CRH.padBuffer
  simp only [List.length_append, List.length_take, List.length_replicate]
  omega

/-! ## C9 -/

/-- C9 (confirmed): for every exponent other than 3 and 5,
`PoseidonSbox::synthesize_sbox` on `Exponentiation(e)` falls through the
wildcard arm to `synthesize_exp3_sbox` and silently returns the cube
`x * (x * x)` instead of failing, so the closed exponent set {3, 5} is not
enforced at this interface. -/
theorem C9_sbox_fallback_returns_cube {p : ℕ} (e : ℕ) (x : ZMod p)
    (h3 : e ≠ 3) (h5 : e ≠ 5) :
    PoseidonSbox.synthesize_sbox (.Exponentiation e) x = .ok (x * (x * x)) := by
  rcases e with _ | _ | _ | _ | _ | _ | e
  · rfl
  · rfl
  · rfl
  · exact absurd rfl h3
  · rfl
  · exact absurd rfl h5
  · rfl

/-- C9 witness: exponent 4 on input 2 over `ZMod 7` yields the cube
`2³ = 1`. -/
theorem C9_sbox_fallback_returns_cube_witness :
    (4 : ℕ) ≠ 3 ∧ (4 : ℕ) ≠ 5 ∧
      PoseidonSbox.synthesize_sbox (.Exponentiation 4) (2 : ZMod 7) =
        .ok (2 * (2 * 2)) :=
  ⟨by decide, by decide,
    C9_sbox_fallback_returns_cube 4 (2 : ZMod 7) (by decide) (by decide)⟩

/-! ## C4 -/

/-- C4 counterexample: with width 2, 2 full rounds and 0 partial rounds, an
empty round-key list (instead of the required `W·(F+P) = 4` keys) passes
`PoseidonParameters::new` untouched — nothing is rejected at construction —
and the violation is first detected in the middle of the permutation, as an
out-of-bounds indexing abort on the round-key vector. -/
theorem C4_counterexample :
    PoseidonParameters.new ([] : List (ZMod 5)) [[1, 1], [1, 1]] =
      { round_keys := [], mds_matrix := [[1, 1], [1, 1]] } ∧
    CRH.permute 5 ⟨2, 2, 0, .Exponentiation 3⟩
      (PoseidonParameters.new ([] : List (ZMod 5)) [[1, 1], [1, 1]]) [0, 0] =
      .abort .indexOOB :=
  ⟨rfl, by decide⟩

/-- C4 (corrected): `PoseidonParameters::new` performs no validation at all —
it stores any round-key list and any matrix as given, whatever their shapes —
so a round-key count or matrix shape inconsistent with `W·(F+P)` is accepted
at construction time, and such a violation is first detected (if ever) in the
middle of a permutation, as an out-of-bounds indexing abort. -/
theorem C4_new_is_unvalidated {p : ℕ} (round_keys : List (ZMod p))
    (mds_matrix : List (List (ZMod p))) :
    PoseidonParameters.new round_keys mds_matrix =
      { round_keys := round_keys, mds_matrix := mds_matrix } ∧
    CRH.permute 5 ⟨2, 2, 0, .Exponentiation 3⟩
      (PoseidonParameters.new ([] : List (ZMod 5)) [[1, 1], [1, 1]]) [0, 0] =
      .abort .indexOOB :=
  ⟨rfl, by decide⟩

/-! ## C3 -/

/-- C3 counterexample: with width 1 and field byte size 1, the two-byte
input `[0, 0]` decodes to 2 > 1 field elements, and the native
`CRH::evaluate` aborts the process through the `panic!` in its length check —
it does not return a recoverable `IncorrectInputLength` error. -/
theorem C3_counterexample :
    CRH.evaluate 5 1 ⟨1, 2, 0, .Exponentiation 3⟩
      (PoseidonParameters.new [0, 0] [[1]]) [0, 0] = .abort .inputLen := by
  decide

/-- C3 (corrected): when the decoded element count exceeds the configured
width, the native `CRH::evaluate` aborts the process via `panic!` rather
than returning a typed error; a typed `IncorrectInputLength` error is never
returned by it on any input. -/
theorem C3_length_overflow_aborts (p L : ℕ) (R : Rounds)
    (params : PoseidonParameters p) (input : List ℕ) :
    (∀ n, CRH.evaluate p L R params input ≠
      .err (.crypto (.IncorrectInputLength n))) ∧
    (∀ fs, to_field_elements p L input = .ok fs → R.WIDTH < fs.length →
      CRH.evaluate p L R params input = .abort .inputLen) := by
  constructor
  · intro n hcontra
    rcases CRH.evaluate_err_shape hcontra with h | ⟨pe, h⟩ <;> cases h
  · intro fs htf hlen
    unfold CRH.evaluate
    rw [htf]
    simp only [Outcome.bind_ok]
    rw [if_pos (by omega)]

/-- C3 witness: concrete instance of the corrected behavior at width 1 and
byte size 1, on the input `[0, 0]`. -/
theorem C3_length_overflow_aborts_witness :
    to_field_elements 5 1 [0, 0] = .ok [0, 0] ∧ (1 : ℕ) < 2 ∧
      CRH.evaluate 5 1 ⟨1, 2, 0, .Exponentiation 5⟩
        (PoseidonParameters.new [0, 0] [[1]]) [0, 0] = .abort .inputLen :=
  ⟨by decide, by decide,
    (C3_length_overflow_aborts 5 1 ⟨1, 2, 0, .Exponentiation 5⟩
      (PoseidonParameters.new [0, 0] [[1]]) [0, 0]).2 [0, 0] (by decide) (by decide)⟩

/-! ## C7 -/

/-- C7 counterexample: with width 1, the 33-byte all-zero input passes the
build-time shape assertion (since `33 / 32 = 1` by integer division) — the
gadget accepts it — yet it decodes to 2 ≠ 1 chunks, so "accepts exactly when
the input decodes to exactly W field elements" fails.  The run then aborts
later inside the linear mixing layer with an out-of-bounds matrix access,
not with the shape assertion. -/
theorem C7_counterexample :
    CRHGadget.evaluate 5 ⟨1, 2, 0, .Exponentiation 3⟩
      (PoseidonParameters.new [0, 0] [[1]]) (List.replicate 33 0) =
      .abort .indexOOB ∧
    CRHGadget.evaluate 5 ⟨1, 2, 0, .Exponentiation 3⟩
      (PoseidonParameters.new [0, 0] [[1]]) (List.replicate 33 0) ≠
      .abort .assertFail ∧
    (chunks 32 (List.replicate 33 (0 : ℕ))).length = 2 :=
  ⟨by decide, by decide, by decide⟩

/-- C7 (corrected): the circuit-side evaluate rejects an input with the
shape-assertion abort exactly when `⌊input.len() / 32⌋ ≠ WIDTH` (integer
division), which is a weaker condition than decoding to exactly `WIDTH`
elements: inputs of length exactly `32·WIDTH` do decode to `WIDTH` elements,
but any accepted length that is not a multiple of 32 decodes to `WIDTH + 1`
elements.  Mismatches are still rejected when `evaluate` runs (at
circuit-build time), via the assertion abort. -/
theorem C7_accept_iff_floor_div (p : ℕ) (R : Rounds)
    (params : PoseidonParameters p) :
    (∀ input : List ℕ,
      CRHGadget.evaluate p R params input = .abort .assertFail ↔
        input.length / 32 ≠ R.WIDTH) ∧
    (∀ input : List ℕ, input.length = 32 * R.WIDTH →
      (chunks 32 input).length = R.WIDTH) ∧
    (∀ input : List ℕ, input.length / 32 = R.WIDTH → ¬(32 ∣ input.length) →
      (chunks 32 input).length = R.WIDTH + 1) := by
  refine ⟨fun input => ?_, fun input hlen => ?_, fun input hdiv hnd => ?_⟩
  · constructor
    · intro h hacc
      unfold CRHGadget.evaluate at h
      rw [if_pos hacc] at h
      exact Outcome.bind_ne_abort
        (CRHGadget.permute_gadget_ne_abort _ _ _ (by decide) (by decide))
        (fun res => unwrapP_ne_abort _ (by decide)) h
    · intro hne
      unfold CRHGadget.evaluate
      rw [if_neg hne]
  · have hc := chunks_length 31 input
    norm_num at hc
    rw [hc, hlen]
    omega
  · have hc := chunks_length 31 input
    norm_num at hc
    rw [hc]
    omega

/-- C7 witness: at width 1, a 16-byte input is rejected with the build-time
assertion abort, and a 32-byte input decodes to exactly 1 element. -/
theorem C7_accept_iff_floor_div_witness :
    CRHGadget.evaluate 5 ⟨1, 2, 0, .Exponentiation 3⟩
      (PoseidonParameters.new [0, 0] [[1]]) (List.replicate 16 0) =
      .abort .assertFail ∧
    (chunks 32 (List.replicate 32 (0 : ℕ))).length = 1 :=
  ⟨((C7_accept_iff_floor_div 5 ⟨1, 2, 0, .Exponentiation 3⟩
      (PoseidonParameters.new [0, 0] [[1]])).1 (List.replicate 16 0)).mpr
      (by decide),
    (C7_accept_iff_floor_div 5 ⟨1, 2, 0, .Exponentiation 3⟩
      (PoseidonParameters.new [0, 0] [[1]])).2.1 (List.replicate 32 0)
      (by decide)⟩

/-! ## C10 -/

/-- C10 counterexample: a WIDTH-1 configuration on which `CRH::evaluate`
does not panic: the single byte `251` is a non-canonical encoding for the
251-element field, so the decode step fails and `evaluate` returns a
recoverable deserialization error — refuting "evaluate panics on every
input" for WIDTH = 1. -/
theorem C10_counterexample :
    CRH.evaluate 251 1 ⟨1, 8, 0, .Exponentiation 3⟩
      (PoseidonParameters.new [0, 0, 0, 0, 0, 0, 0, 0] [[1]]) [251] =
      .err .deser := by
  decide

/-- C10 (corrected): for WIDTH = 1 the native `evaluate` can never return a
value — whenever decoding succeeds, the element count fits, and the
permutation succeeds, the unguarded `result.get(1).unwrap()` aborts (and
the remaining paths abort earlier or return errors) — but inputs that fail
byte decoding or the S-box make it return a recoverable error rather than
panic.  For WIDTH ≥ 2 the unwrap's failure branch is unreachable. -/
theorem C10_width_one_never_returns (p L : ℕ) (R : Rounds)
    (params : PoseidonParameters p) (input : List ℕ) :
    (R.WIDTH = 1 → ∀ v, CRH.evaluate p L R params input ≠ .ok v) ∧
    (2 ≤ R.WIDTH → CRH.evaluate p L R params input ≠ .abort .unwrapNone) := by
  constructor
  · intro hW v hcontra
    unfold CRH.evaluate at hcontra
    rcases Outcome.bind_eq_ok hcontra with ⟨fs, htf, h⟩
    by_cases hlen : fs.length > R.WIDTH
    · rw [if_pos hlen] at h; cases h
    · rw [if_neg hlen] at h
      rcases Outcome.bind_eq_ok h with ⟨res, hres, hunwrap⟩
      have hperm := Outcome.mapErr_eq_ok hres
      have hreslen : res.length = R.WIDTH :=
        (CRH.permute_length hperm).trans (CRH.padBuffer_length (by omega))
      have hnone : res.get? 1 = none := List.get?_eq_none.mpr (by omega)
      rw [hnone] at hunwrap
      cases hunwrap
  · intro hW hcontra
    unfold CRH.evaluate at hcontra
    cases htf : to_field_elements p L input with
    | ok fs =>
        rw [htf, Outcome.bind_ok] at hcontra
        by_cases hlen : fs.length > R.WIDTH
        · rw [if_pos hlen] at hcontra
          injection hcontra with hk
          cases hk
        · rw [if_neg hlen] at hcontra
          cases hperm : CRH.permute p R params (CRH.padBuffer p R.WIDTH fs) with
          | ok res =>
              rw [hperm] at hcontra
              simp only [Outcome.mapErr, Outcome.bind_ok] at hcontra
              have hreslen : res.length = R.WIDTH :=
                (CRH.permute_length hperm).trans
                  (CRH.padBuffer_length (by omega))
              rcases List.get?_eq_get (show 1 < res.length by omega) with hsome
              rw [hsome] at hcontra
              cases hcontra
          | err e =>
              rw [hperm] at hcontra
              simp only [Outcome.mapErr, Outcome.bind_err] at hcontra
              cases hcontra
          | abort k =>
              rw [hperm] at hcontra
              simp only [Outcome.mapErr, Outcome.bind_abort] at hcontra
              injection hcontra with hk
              subst hk
              exact CRH.permute_native_ne_abort _ _ _ (by decide) hperm
    | err e => rw [htf, Outcome.bind_err] at hcontra; cases hcontra
    | abort k => exact to_field_elements_ne_abort _ _ htf

/-- C10 witness: a WIDTH-1 run that cannot return `ok`, and a WIDTH-2 run
that cannot abort at the unwrap. -/
theorem C10_width_one_never_returns_witness :
    CRH.evaluate 5 1 ⟨1, 2, 0, .Exponentiation 3⟩
      (PoseidonParameters.new [0, 0] [[1]]) [0] ≠ .ok 0 ∧
    CRH.evaluate 5 1 ⟨2, 2, 0, .Exponentiation 3⟩
      (PoseidonParameters.new [0, 0, 0, 0] [[1, 0], [0, 1]]) [0] ≠
      .abort .unwrapNone :=
  ⟨(C10_width_one_never_returns 5 1 ⟨1, 2, 0, .Exponentiation 3⟩
      (PoseidonParameters.new [0, 0] [[1]]) [0]).1 rfl 0,
    (C10_width_one_never_returns 5 1 ⟨2, 2, 0, .Exponentiation 3⟩
      (PoseidonParameters.new [0, 0, 0, 0] [[1, 0], [0, 1]]) [0]).2
      (by decide)⟩

/-! ## C8 -/

/-- C8 (confirmed): over a field with canonical `L`-byte encodings
(`0 < L`, `p ≤ 256^L`), the identity hash returns exactly the element whose
canonical encoding it is fed; more generally, on any canonical byte string
(length `L`, genuine bytes, value inside the field) it returns the canonical
decoding and re-encoding that result reproduces the bytes. -/
theorem C8_identity_roundtrip (p L : ℕ) [NeZero p] (hL : 0 < L)
    (hp : p ≤ 256 ^ L) :
    (∀ v : ZMod p, IdentityCRH.evaluate p L (encodeF p L v) = .ok v) ∧
    (∀ bytes : List ℕ, bytes.length = L → (∀ b ∈ bytes, b < 256) →
      leVal bytes < p →
      IdentityCRH.evaluate p L bytes = .ok (from_le_bytes_mod_order p bytes) ∧
      encodeF p L (from_le_bytes_mod_order p bytes) = bytes) := by
  obtain ⟨L', rfl⟩ : ∃ L', L = L' + 1 := ⟨L - 1, by omega⟩
  have hsingle : ∀ bs : List ℕ, bs.length = L' + 1 →
      chunks (L' + 1) bs = [bs] := by
    intro bs hbs
    exact chunks_eq_single (by intro hnil; rw [hnil] at hbs; cases hbs)
      (le_of_eq hbs)
  constructor
  · intro v
    have hval : ZMod.val v < p := ZMod.val_lt v
    have henc : leVal (encodeF p (L' + 1) v) = ZMod.val v := by
      unfold encodeF
      rw [leVal_leBytes, Nat.mod_eq_of_lt (lt_of_lt_of_le hval hp)]
    have hread : readF p (encodeF p (L' + 1) v) = some v := by
      unfold readF
      rw [henc, if_pos hval]
      exact congrArg some (ZMod.natCast_rightInverse v)
    unfold IdentityCRH.evaluate to_field_elements
    rw [hsingle _ (by simp [encodeF])]
    simp [collectRead, hread]
  · intro bytes hlen hb hlt
    have hev : IdentityCRH.evaluate p (L' + 1) bytes =
        .ok (from_le_bytes_mod_order p bytes) := by
      have hread : readF p bytes = some (from_le_bytes_mod_order p bytes) := by
        unfold readF from_le_bytes_mod_order
        rw [if_pos hlt]
      unfold IdentityCRH.evaluate to_field_elements
      rw [hsingle _ hlen]
      simp [collectRead, hread]
    refine ⟨hev, ?_⟩
    unfold encodeF from_le_bytes_mod_order
    rw [ZMod.val_cast_of_lt hlt, ← hlen, leBytes_leVal bytes hb]

/-- C8 witness: over `ZMod 251` with 1-byte encodings, the encoding of 7
round-trips through the identity hash, and the canonical byte string `[9]`
decodes and re-encodes exactly. -/
theorem C8_identity_roundtrip_witness :
    IdentityCRH.evaluate 251 1 (encodeF 251 1 7) = .ok 7 ∧
    IdentityCRH.evaluate 251 1 [9] = .ok (from_le_bytes_mod_order 251 [9]) ∧
    encodeF 251 1 (from_le_bytes_mod_order 251 [9]) = [9] :=
  ⟨(C8_identity_roundtrip 251 1 (by decide) (by decide)).1 7,
    ((C8_identity_roundtrip 251 1 (by decide) (by decide)).2 [9] (by decide)
      (by decide) (by decide)).1,
    ((C8_identity_roundtrip 251 1 (by decide) (by decide)).2 [9] (by decide)
      (by decide) (by decide)).2⟩

/-! ## C6 -/

theorem list_getD_eq_get {α : Type} (l : List α) (d : α) {i : ℕ}
    (hi : i < l.length) : l.getD i d = l.get ⟨i, hi⟩ := by
  rw [List.getD_eq_get?, List.get?_eq_get hi]
  rfl

/-- Under in-range bounds the inner loop of `apply_linear_layer` computes
exactly the row sum `Σ_j mds[i][j] * state[j]`. -/
theorem linearRowSum_ok {p : ℕ} {ε : Type} (state : List (ZMod p))
    (mds : List (List (ZMod p))) (i : ℕ) (hi : i < mds.length)
    (hrow : state.length ≤ (mds.getD i []).length) :
    (linearRowSum state mds i : Outcome ε _) =
      .ok (((List.range state.length).map fun j =>
        (mds.getD i []).getD j 0 * state.getD j 0).sum) := by
  unfold linearRowSum
  suffices H : ∀ n, n ≤ state.length → ∀ sc0 : ZMod p,
      (List.range n).foldl
        (fun (sacc : Outcome ε (ZMod p)) j => sacc.bind fun sc => do
          let row ← idxP mds i
          let mij ← idxP row j
          let xj ← idxP state j
          pure (sc + mij * xj))
        (.ok sc0) =
      .ok (sc0 + ((List.range n).map fun j =>
        (mds.getD i []).getD j 0 * state.getD j 0).sum) by
    rw [H state.length le_rfl 0, zero_add]
  intro n
  induction n with
  | zero => intro hn sc0; simp
  | succ n ih =>
      intro hn sc0
      rw [List.range_succ, List.foldl_append, ih (by omega) sc0]
      have hrowval : idxP mds i = (.ok (mds.getD i []) : Outcome ε _) := by
        rw [idxP_of_lt hi, list_getD_eq_get mds [] hi]
      have hmij : idxP (mds.getD i []) n =
          (.ok ((mds.getD i []).getD n 0) : Outcome ε _) := by
        rw [idxP_of_lt (show n < (mds.getD i []).length by omega),
          list_getD_eq_get _ (0 : ZMod p)]
      have hxj : idxP state n = (.ok (state.getD n 0) : Outcome ε _) := by
        rw [idxP_of_lt (show n < state.length by omega),
          list_getD_eq_get _ (0 : ZMod p)]
      simp only [List.foldl_cons, List.foldl_nil, Outcome.bind_ok,
        Outcome.monad_bind_eq_bind, hrowval, hmij, hxj, Outcome.pure_eq_ok]
      rw [List.map_append, List.sum_append]
      simp [add_assoc]

/-- Under shape bounds `apply_linear_layer` succeeds and computes the
matrix-vector product row by row. -/
theorem apply_linear_layer_ok {p : ℕ} {ε : Type} (state : List (ZMod p))
    (mds : List (List (ZMod p))) (hlen : state.length ≤ mds.length)
    (hrows : ∀ i, i < state.length → state.length ≤ (mds.getD i []).length) :
    (apply_linear_layer state mds : Outcome ε _) =
      .ok ((List.range state.length).map fun i =>
        ((List.range state.length).map fun j =>
          (mds.getD i []).getD j 0 * state.getD j 0).sum) := by
  unfold apply_linear_layer
  suffices H : ∀ n, n ≤ state.length → ∀ ns : List (ZMod p),
      (List.range n).foldl
        (fun (acc : Outcome ε (List (ZMod p))) i => acc.bind fun new_state =>
          (linearRowSum state mds i).bind fun sc => pure (new_state ++ [sc]))
        (.ok ns) =
      .ok (ns ++ (List.range n).map fun i =>
        ((List.range state.length).map fun j =>
          (mds.getD i []).getD j 0 * state.getD j 0).sum) by
    rw [H state.length le_rfl []]
    simp
  intro n
  induction n with
  | zero => intro hn ns; simp
  | succ n ih =>
      intro hn ns
      rw [List.range_succ, List.foldl_append, ih (by omega) ns]
      rw [show (List.foldl
          (fun (acc : Outcome ε (List (ZMod p))) i => acc.bind fun new_state =>
            (linearRowSum state mds i).bind fun sc => pure (new_state ++ [sc]))
          _ [n]) = _ from rfl]
      simp only [List.foldl_cons, List.foldl_nil, Outcome.bind_ok]
      rw [linearRowSum_ok state mds n (by omega) (hrows n (by omega))]
      simp only [Outcome.bind_ok, Outcome.pure_eq_ok]
      rw [List.map_append, List.append_assoc]
      rfl

theorem zipWith_add_getD {p : ℕ} :
    ∀ (a b : List (ZMod p)) (j : ℕ), j < a.length → j < b.length →
      (List.zipWith (fun x y => x + y) a b).getD j 0 =
        a.getD j 0 + b.getD j 0 := by
  intro a
  induction a with
  | nil => intro b j h; simp at h
  | cons x xs ih =>
      intro b j h1 h2
      cases b with
      | nil => simp at h2
      | cons y ys =>
          cases j with
          | zero => simp
          | succ j =>
              simpa using ih ys j (by simpa using h1) (by simpa using h2)

theorem zipWith_add_map_same {p : ℕ} (F G : ℕ → ZMod p) :
    ∀ l : List ℕ,
      List.zipWith (fun x y => x + y) (l.map F) (l.map G) =
        l.map fun i => F i + G i := by
  intro l
  induction l with
  | nil => rfl
  | cons i t ih => simp [ih]

theorem sum_map_range_add {p : ℕ} (f g : ℕ → ZMod p) (n : ℕ) :
    ((List.range n).map fun j => f j + g j).sum =
      ((List.range n).map f).sum + ((List.range n).map g).sum := by
  induction n with
  | zero => simp
  | succ n ih =>
      rw [List.range_succ]
      simp only [List.map_append, List.sum_append, ih]
      simp
      ring

/-- C6 (confirmed): for every `W×W` matrix and width-`W` states `a` and `b`,
`apply_linear_layer` succeeds on `a`, `b` and on their elementwise sum, and
the elementwise sum of the first two results equals the third —
`mix(a) + mix(b) = mix(a + b)`. -/
theorem C6_linear_layer_additive (p W : ℕ) (mds : List (List (ZMod p)))
    (a b : List (ZMod p)) (hmds : mds.length = W)
    (hrows : ∀ row ∈ mds, row.length = W)
    (ha : a.length = W) (hb : b.length = W) :
    ∃ ma mb : List (ZMod p),
      (apply_linear_layer a mds : Outcome PoseidonError _) = .ok ma ∧
      (apply_linear_layer b mds : Outcome PoseidonError _) = .ok mb ∧
      (apply_linear_layer (List.zipWith (fun x y => x + y) a b) mds :
        Outcome PoseidonError _) = .ok (List.zipWith (fun x y => x + y) ma mb) := by
  have hrowsD : ∀ i, i < W → (mds.getD i []).length = W := by
    intro i hi
    have hilt : i < mds.length := by omega
    rw [list_getD_eq_get mds [] hilt]
    exact hrows _ (mds.get_mem _ _)
  have hab : (List.zipWith (fun x y : ZMod p => x + y) a b).length = W := by
    rw [List.length_zipWith]
    omega
  refine ⟨_, _, apply_linear_layer_ok a mds (by omega)
      (fun i hi => by rw [hrowsD i (by omega)]; omega),
    apply_linear_layer_ok b mds (by omega)
      (fun i hi => by rw [hrowsD i (by omega)]; omega), ?_⟩
  rw [apply_linear_layer_ok (List.zipWith (fun x y => x + y) a b) mds
    (by omega) (fun i hi => by rw [hrowsD i (by omega)]; omega)]
  congr 1
  rw [ha, hb, hab, zipWith_add_map_same]
  apply List.map_congr_left
  intro i hi
  rw [← sum_map_range_add]
  apply congrArg
  apply List.map_congr_left
  intro j hj
  rw [List.mem_range] at hj
  rw [zipWith_add_getD a b j (by omega) (by omega), mul_add]

/-- C6 witness: over `ZMod 7` with the 1×1 matrix `[[2]]`,
`mix([1]) + mix([2]) = [2] + [4] = [6] = mix([3]) = mix([1] + [2])`. -/
theorem C6_linear_layer_additive_witness :
    ([[2]] : List (List (ZMod 7))).length = 1 ∧
    ∃ ma mb : List (ZMod 7),
      (apply_linear_layer [1] [[2]] : Outcome PoseidonError _) = .ok ma ∧
      (apply_linear_layer [2] [[2]] : Outcome PoseidonError _) = .ok mb ∧
      (apply_linear_layer (List.zipWith (fun x y => x + y) [1] [2]) [[2]] :
        Outcome PoseidonError _) =
        .ok (List.zipWith (fun x y => x + y) ma mb) :=
  ⟨rfl, C6_linear_layer_additive 7 1 [[2]] [1] [2] rfl
    (by intro row hrow; simp at hrow; simp [hrow]) rfl rfl⟩

/-! ## C5 -/

/-- C5 (confirmed): with an even full-round count, at least `W·(F+P)` round
keys and a width-`W` state, the native permutation is precisely
`F/2` full rounds, then `P` partial rounds, then `F/2` more full rounds, run
over one round-key cursor that starts at 0 and, on success, ends at exactly
`W·(F+P)` — so exactly `W·(F+P)` keys are consumed in order.  Each partial
round adds a key to every position but applies the S-box to position 0
only. -/
theorem C5_round_schedule (p : ℕ) (R : Rounds) (params : PoseidonParameters p)
    (state : List (ZMod p)) (hF : 2 ∣ R.FULL_ROUNDS)
    (hkeys : R.WIDTH * (R.FULL_ROUNDS + R.PARTIAL_ROUNDS) ≤
      params.round_keys.length)
    (hstate : state.length = R.WIDTH) :
    (CRH.permute p R params state =
      (iterateRound (fullRound (PoseidonSbox.apply_sbox R.SBOX)
          params.round_keys params.mds_matrix R.WIDTH) (R.FULL_ROUNDS / 2)
          (state, 0)).bind fun st1 =>
        (iterateRound (partialRound (PoseidonSbox.apply_sbox R.SBOX)
          params.round_keys params.mds_matrix R.WIDTH) R.PARTIAL_ROUNDS
          st1).bind fun st2 =>
        (iterateRound (fullRound (PoseidonSbox.apply_sbox R.SBOX)
          params.round_keys params.mds_matrix R.WIDTH) (R.FULL_ROUNDS / 2)
          st2).bind fun st3 => .ok st3.1) ∧
    (∀ s off, permuteAux (PoseidonSbox.apply_sbox R.SBOX) params R (state, 0) =
        .ok (s, off) →
      off = R.WIDTH * (R.FULL_ROUNDS + R.PARTIAL_ROUNDS)) ∧
    (∀ st (s' : List (ZMod p)) (o' : ℕ),
      partialRound (PoseidonSbox.apply_sbox R.SBOX) params.round_keys
        params.mds_matrix R.WIDTH st = .ok (s', o') →
      ∃ u : List (ZMod p) × ℕ,
        (keyAddLayer params.round_keys R.WIDTH st :
          Outcome PoseidonError _) = .ok u ∧ u.2 = o' ∧
        ∃ x0 y0, u.1.get? 0 = some x0 ∧
          PoseidonSbox.apply_sbox R.SBOX x0 = .ok y0 ∧
          (apply_linear_layer (u.1.set 0 y0) params.mds_matrix :
            Outcome PoseidonError _) = .ok s') := by
  obtain ⟨m, hm⟩ := hF
  refine ⟨?_, ?_, ?_⟩
  · unfold CRH.permute permuteAux
    simp only [Outcome.monad_bind_eq_bind, Outcome.bind_assoc]
  · intro s off h
    have hsh : off = 0 + (R.FULL_ROUNDS / 2 + R.PARTIAL_ROUNDS +
        R.FULL_ROUNDS / 2) * R.WIDTH := by
      simpa using (permuteAux_shape h).2
    rw [hm, Nat.mul_div_cancel_left m (by norm_num : (0:ℕ) < 2)] at hsh
    rw [hsh, hm]
    ring
  · intro st s' o' h
    unfold partialRound at h
    simp only [Outcome.monad_bind_eq_bind, Outcome.pure_eq_ok] at h
    rcases Outcome.bind_eq_ok h with ⟨u, hu, h⟩
    rcases Outcome.bind_eq_ok h with ⟨x0, hx0, h⟩
    rcases Outcome.bind_eq_ok h with ⟨y0, hy0, h⟩
    rcases Outcome.bind_eq_ok h with ⟨s2, hs2, h⟩
    injection h with hpair
    injection hpair with hs hoff
    subst hs
    subst hoff
    exact ⟨u, hu, rfl, x0, y0, idxP_eq_ok.mp hx0, hy0, hs2⟩

/-- C5 witness: a concrete width-2 run with `F = 2`, `P = 1` and 6 round
keys, on which the permutation succeeds and the cursor ends at
`6 = 2·(2+1)`. -/
theorem C5_round_schedule_witness :
    permuteAux (PoseidonSbox.apply_sbox (PoseidonSbox.Exponentiation 3))
      (PoseidonParameters.new [1, 1, 1, 1, 1, 1] [[1, 0], [0, 1]] :
        PoseidonParameters 7)
      ⟨2, 2, 1, .Exponentiation 3⟩ ([0, 0], 0) = .ok ([1, 6], 6) ∧
    (6 : ℕ) = 2 * (2 + 1) :=
  ⟨by decide,
    (C5_round_schedule 7 ⟨2, 2, 1, .Exponentiation 3⟩
      (PoseidonParameters.new [1, 1, 1, 1, 1, 1] [[1, 0], [0, 1]]) [0, 0]
      (by decide) (by decide) rfl).2.1 [1, 6] 6 (by decide)⟩

/-! ## C1: transferring successful native runs to the gadget

The native and gadget permutations share their text; on any input where the
native side succeeds, every S-box value the native side computed is also
computed by the synthesized S-box, so the whole run transfers. -/

theorem Outcome.ok_transfer {ε₁ ε₂ α : Type} (a : α) :
    ∀ b : α, (Outcome.ok a : Outcome ε₁ α) = .ok b →
      (Outcome.ok a : Outcome ε₂ α) = .ok b := by
  intro b h
  injection h with h
  rw [h]

theorem Outcome.bind_ok_transfer {ε₁ ε₂ α β : Type} {o₁ : Outcome ε₁ α}
    {o₂ : Outcome ε₂ α} {f₁ : α → Outcome ε₁ β} {f₂ : α → Outcome ε₂ β}
    (ho : ∀ a, o₁ = .ok a → o₂ = .ok a)
    (hf : ∀ a b, f₁ a = .ok b → f₂ a = .ok b) :
    ∀ b, o₁.bind f₁ = .ok b → o₂.bind f₂ = .ok b := by
  intro b h
  rcases Outcome.bind_eq_ok h with ⟨a, ha, hb⟩
  rw [ho a ha, Outcome.bind_ok]
  exact hf a b hb

theorem idxP_transfer {ε₁ ε₂ α : Type} (l : List α) (i : ℕ) :
    ∀ a, (idxP l i : Outcome ε₁ α) = .ok a →
      (idxP l i : Outcome ε₂ α) = .ok a := by
  intro a h
  exact idxP_eq_ok.mpr (idxP_eq_ok.mp h)

theorem foldl_bind_transfer {ε₁ ε₂ α ι : Type} (l : List ι)
    {g₁ : ι → α → Outcome ε₁ α} {g₂ : ι → α → Outcome ε₂ α}
    (hg : ∀ i a b, g₁ i a = .ok b → g₂ i a = .ok b) :
    ∀ (init out : α),
      l.foldl (fun (acc : Outcome ε₁ α) i => acc.bind (g₁ i)) (.ok init) =
        .ok out →
      l.foldl (fun (acc : Outcome ε₂ α) i => acc.bind (g₂ i)) (.ok init) =
        .ok out := by
  induction l with
  | nil => intro init out h; simpa using h
  | cons i t ih =>
      intro init out h
      simp only [List.foldl_cons, Outcome.bind_ok] at h ⊢
      cases hgi : g₁ i init with
      | ok b =>
          rw [hgi] at h
          rw [hg i init b hgi]
          exact ih b out h
      | err e => rw [hgi, foldl_bind_err] at h; cases h
      | abort k => rw [hgi, foldl_bind_abort] at h; cases h

/-- Every value the native S-box produces is also produced by the
synthesized S-box (power 3 up to associativity, power 5 verbatim, inverse on
nonzero inputs; the native failure cases are vacuous). -/
theorem apply_sbox_to_synthesize {p : ℕ} (s : PoseidonSbox) :
    ∀ x y : ZMod p, PoseidonSbox.apply_sbox s x = .ok y →
      PoseidonSbox.synthesize_sbox s x = .ok y := by
  intro x y h
  cases s with
  | Exponentiation e =>
      rcases e with _ | _ | _ | _ | _ | _ | e
      · simp [PoseidonSbox.apply_sbox] at h
      · simp [PoseidonSbox.apply_sbox] at h
      · simp [PoseidonSbox.apply_sbox] at h
      · injection h with hy
        subst hy
        show Outcome.ok (x * (x * x)) = _
        rw [mul_assoc]
      · simp [PoseidonSbox.apply_sbox] at h
      · injection h with hy
        subst hy
        rfl
      · simp [PoseidonSbox.apply_sbox] at h
  | Inverse =>
      by_cases hx : x = 0
      · simp [PoseidonSbox.apply_sbox, hx] at h
      · simp only [PoseidonSbox.apply_sbox, hx, if_false] at h
        simpa [PoseidonSbox.synthesize_sbox, hx] using h

theorem sboxStep_transfer {p : ℕ} {ε₁ ε₂ : Type}
    {sb₁ : ZMod p → Outcome ε₁ (ZMod p)} {sb₂ : ZMod p → Outcome ε₂ (ZMod p)}
    (hsb : ∀ x y, sb₁ x = .ok y → sb₂ x = .ok y) (keys : List (ZMod p))
    (i : ℕ) :
    ∀ so so', sboxStep sb₁ keys i so = .ok so' →
      sboxStep sb₂ keys i so = .ok so' := by
  intro so
  unfold sboxStep
  simp only [Outcome.monad_bind_eq_bind, Outcome.pure_eq_ok]
  exact Outcome.bind_ok_transfer (idxP_transfer _ _) fun k =>
    Outcome.bind_ok_transfer (idxP_transfer _ _) fun x =>
      Outcome.bind_ok_transfer (hsb _) fun y => Outcome.ok_transfer _

theorem keyAddStep_transfer {p : ℕ} {ε₁ ε₂ : Type} (keys : List (ZMod p))
    (i : ℕ) :
    ∀ so so', (keyAddStep keys i so : Outcome ε₁ _) = .ok so' →
      (keyAddStep keys i so : Outcome ε₂ _) = .ok so' := by
  intro so
  unfold keyAddStep
  simp only [Outcome.monad_bind_eq_bind, Outcome.pure_eq_ok]
  exact Outcome.bind_ok_transfer (idxP_transfer _ _) fun k =>
    Outcome.bind_ok_transfer (idxP_transfer _ _) fun x => Outcome.ok_transfer _

theorem sboxLayer_transfer {p : ℕ} {ε₁ ε₂ : Type}
    {sb₁ : ZMod p → Outcome ε₁ (ZMod p)} {sb₂ : ZMod p → Outcome ε₂ (ZMod p)}
    (hsb : ∀ x y, sb₁ x = .ok y → sb₂ x = .ok y) (keys : List (ZMod p))
    (width : ℕ) :
    ∀ st st', sboxLayer sb₁ keys width st = .ok st' →
      sboxLayer sb₂ keys width st = .ok st' := by
  intro st
  unfold sboxLayer
  exact foldl_bind_transfer _ (fun i => sboxStep_transfer hsb keys i) st

theorem keyAddLayer_transfer {p : ℕ} {ε₁ ε₂ : Type} (keys : List (ZMod p))
    (width : ℕ) :
    ∀ st st', (keyAddLayer keys width st : Outcome ε₁ _) = .ok st' →
      (keyAddLayer keys width st : Outcome ε₂ _) = .ok st' := by
  intro st
  unfold keyAddLayer
  exact foldl_bind_transfer _ (fun i => keyAddStep_transfer keys i) st

theorem linearRowSum_transfer {p : ℕ} {ε₁ ε₂ : Type} (state : List (ZMod p))
    (mds : List (List (ZMod p))) (i : ℕ) :
    ∀ sc, (linearRowSum state mds i : Outcome ε₁ _) = .ok sc →
      (linearRowSum state mds i : Outcome ε₂ _) = .ok sc := by
  unfold linearRowSum
  refine foldl_bind_transfer _ (fun j a => ?_) 0
  simp only [Outcome.monad_bind_eq_bind, Outcome.pure_eq_ok]
  exact Outcome.bind_ok_transfer (idxP_transfer _ _) fun row =>
    Outcome.bind_ok_transfer (idxP_transfer _ _) fun mij =>
      Outcome.bind_ok_transfer (idxP_transfer _ _) fun xj => Outcome.ok_transfer _

theorem apply_linear_layer_transfer {p : ℕ} {ε₁ ε₂ : Type}
    (state : List (ZMod p)) (mds : List (List (ZMod p))) :
    ∀ s', (apply_linear_layer state mds : Outcome ε₁ _) = .ok s' →
      (apply_linear_layer state mds : Outcome ε₂ _) = .ok s' := by
  unfold apply_linear_layer
  refine foldl_bind_transfer _ (fun i ns => ?_) []
  simp only [Outcome.pure_eq_ok]
  exact Outcome.bind_ok_transfer (fun sc => linearRowSum_transfer _ _ _ sc)
    fun sc => Outcome.ok_transfer _

theorem fullRound_transfer {p : ℕ} {ε₁ ε₂ : Type}
    {sb₁ : ZMod p → Outcome ε₁ (ZMod p)} {sb₂ : ZMod p → Outcome ε₂ (ZMod p)}
    (hsb : ∀ x y, sb₁ x = .ok y → sb₂ x = .ok y) (keys : List (ZMod p))
    (mds : List (List (ZMod p))) (width : ℕ) :
    ∀ st st', fullRound sb₁ keys mds width st = .ok st' →
      fullRound sb₂ keys mds width st = .ok st' := by
  intro st
  unfold fullRound
  simp only [Outcome.monad_bind_eq_bind, Outcome.pure_eq_ok]
  exact Outcome.bind_ok_transfer (sboxLayer_transfer hsb _ _ _) fun so =>
    Outcome.bind_ok_transfer (fun s2 => apply_linear_layer_transfer _ _ s2)
      fun s2 => Outcome.ok_transfer _

theorem partialRound_transfer {p : ℕ} {ε₁ ε₂ : Type}
    {sb₁ : ZMod p → Outcome ε₁ (ZMod p)} {sb₂ : ZMod p → Outcome ε₂ (ZMod p)}
    (hsb : ∀ x y, sb₁ x = .ok y → sb₂ x = .ok y) (keys : List (ZMod p))
    (mds : List (List (ZMod p))) (width : ℕ) :
    ∀ st st', partialRound sb₁ keys mds width st = .ok st' →
      partialRound sb₂ keys mds width st = .ok st' := by
  intro st
  unfold partialRound
  simp only [Outcome.monad_bind_eq_bind, Outcome.pure_eq_ok]
  exact Outcome.bind_ok_transfer (keyAddLayer_transfer _ _ _) fun so =>
    Outcome.bind_ok_transfer (idxP_transfer _ _) fun x0 =>
      Outcome.bind_ok_transfer (hsb _) fun y0 =>
        Outcome.bind_ok_transfer (fun s2 => apply_linear_layer_transfer _ _ s2)
          fun s2 => Outcome.ok_transfer _

theorem iterateRound_transfer {ε₁ ε₂ α : Type} {f₁ : α → Outcome ε₁ α}
    {f₂ : α → Outcome ε₂ α} (hf : ∀ a b, f₁ a = .ok b → f₂ a = .ok b) :
    ∀ (n : ℕ) (a out : α), iterateRound f₁ n a = .ok out →
      iterateRound f₂ n a = .ok out := by
  intro n
  induction n with
  | zero => intro a out h; simpa [iterateRound] using h
  | succ n ih =>
      intro a
      unfold iterateRound
      exact Outcome.bind_ok_transfer (hf a) fun b => ih b

theorem permuteAux_transfer {p : ℕ} {ε₁ ε₂ : Type}
    {sb₁ : ZMod p → Outcome ε₁ (ZMod p)} {sb₂ : ZMod p → Outcome ε₂ (ZMod p)}
    (hsb : ∀ x y, sb₁ x = .ok y → sb₂ x = .ok y)
    (params : PoseidonParameters p) (R : Rounds) :
    ∀ st st', permuteAux sb₁ params R st = .ok st' →
      permuteAux sb₂ params R st = .ok st' := by
  intro st
  unfold permuteAux
  simp only [Outcome.monad_bind_eq_bind]
  exact Outcome.bind_ok_transfer
    (iterateRound_transfer (fullRound_transfer hsb _ _ _) _ st) fun st1 =>
      Outcome.bind_ok_transfer
        (iterateRound_transfer (partialRound_transfer hsb _ _ _) _ st1) fun st2 =>
          iterateRound_transfer (fullRound_transfer hsb _ _ _) _ st2

/-- A successful native `CRH::permute` run is reproduced value-for-value by
the circuit gadget's `CRHGadget::permute`. -/
theorem CRH.permute_to_gadget {p : ℕ} (R : Rounds)
    (params : PoseidonParameters p) (state : List (ZMod p)) :
    ∀ s, CRH.permute p R params state = .ok s →
      CRHGadget.permute p R params state = .ok s := by
  unfold CRH.permute CRHGadget.permute
  exact Outcome.bind_ok_transfer
    (permuteAux_transfer (apply_sbox_to_synthesize R.SBOX) params R (state, 0))
    (fun so => Outcome.ok_transfer _)

theorem unwrapP_transfer {ε₁ ε₂ α : Type} (o : Option α) :
    ∀ a, (unwrapP o : Outcome ε₁ α) = .ok a →
      (unwrapP o : Outcome ε₂ α) = .ok a := by
  cases o with
  | some x => exact fun a h => Outcome.ok_transfer x a h
  | none => intro a h; cases h

theorem collectRead_ok {p : ℕ} :
    ∀ (cs : List (List ℕ)) (fs : List (ZMod p)), collectRead p cs = some fs →
      fs = cs.map (from_le_bytes_mod_order p) := by
  intro cs
  induction cs with
  | nil =>
      intro fs h
      unfold collectRead at h
      cases h
      rfl
  | cons c t ih =>
      intro fs h
      unfold collectRead at h
      cases hr : readF p c with
      | none => rw [hr] at h; cases h
      | some x =>
          rw [hr] at h
          cases hc : collectRead p t with
          | none => rw [hc] at h; cases h
          | some xs =>
              rw [hc] at h
              injection h with h
              subst h
              have hx : x = from_le_bytes_mod_order p c := by
                unfold readF at hr
                split at hr
                · injection hr with h2
                  rw [← h2]
                  rfl
                · cases hr
              rw [List.map_cons, ← hx, ← ih xs hc]

theorem to_field_elements_ok {p L : ℕ} {bytes : List ℕ} {fs : List (ZMod p)}
    (h : to_field_elements p L bytes = .ok fs) :
    fs = (chunks L bytes).map (from_le_bytes_mod_order p) := by
  unfold to_field_elements at h
  cases hc : collectRead p (chunks L bytes) with
  | some res =>
      rw [hc] at h
      injection h with h
      subst h
      exact collectRead_ok _ _ hc
  | none => rw [hc] at h; cases h

theorem CRH.padBuffer_eq_self {p W : ℕ} {xs : List (ZMod p)}
    (h : xs.length = W) : CRH.padBuffer p W xs = xs := by
  unfold CRH.padBuffer
  rw [← h]
  simp

/-- C1 (confirmed): over the deployed 32-byte field encoding, for every
parameter bundle and every legal input — one the native facade accepts
(`evaluate` returns a value) and whose byte length passes the gadget's
shape check — the value held by the gadget's output variable equals the
native output exactly. -/
theorem C1_gadget_matches_native (p L : ℕ) (R : Rounds)
    (params : PoseidonParameters p) (input : List ℕ) (v : ZMod p)
    (hL : L = 32) (hacc : input.length / 32 = R.WIDTH)
    (hok : CRH.evaluate p L R params input = .ok v) :
    CRHGadget.evaluate p R (PoseidonParametersVar.new_variable params) input =
      .ok v := by
  subst hL
  unfold CRH.evaluate at hok
  rcases Outcome.bind_eq_ok hok with ⟨fs, htf, h⟩
  by_cases hlen : fs.length > R.WIDTH
  · rw [if_pos hlen] at h; cases h
  · rw [if_neg hlen] at h
    rcases Outcome.bind_eq_ok h with ⟨res, hres, hunwrap⟩
    have hperm := Outcome.mapErr_eq_ok hres
    have hfs := to_field_elements_ok htf
    have hcount : fs.length = (chunks 32 input).length := by
      rw [hfs, List.length_map]
    have hchunks : (chunks 32 input).length = (input.length + 31) / 32 := by
      have hcl := chunks_length 31 input
      norm_num at hcl
      exact hcl
    have hcW : fs.length = R.WIDTH := by omega
    rw [CRH.padBuffer_eq_self hcW] at hperm
    show CRHGadget.evaluate p R params input = .ok v
    unfold CRHGadget.evaluate
    rw [if_pos hacc, ← hfs,
      CRH.permute_to_gadget R params fs res hperm, Outcome.bind_ok]
    exact unwrapP_transfer _ v hunwrap

/-- C1 witness: a concrete width-2 bundle over `ZMod 251` with the 64-byte
zero input, on which both sides return 54. -/
theorem C1_gadget_matches_native_witness :
    CRH.evaluate 251 32 ⟨2, 2, 0, .Exponentiation 3⟩
      (PoseidonParameters.new [1, 1, 1, 1] [[1, 1], [1, 1]])
      (List.replicate 64 0) = .ok 54 ∧
    CRHGadget.evaluate 251 ⟨2, 2, 0, .Exponentiation 3⟩
      (PoseidonParametersVar.new_variable
        (PoseidonParameters.new [1, 1, 1, 1] [[1, 1], [1, 1]]))
      (List.replicate 64 0) = .ok 54 :=
  ⟨by decide,
    C1_gadget_matches_native 251 32 ⟨2, 2, 0, .Exponentiation 3⟩
      (PoseidonParameters.new [1, 1, 1, 1] [[1, 1], [1, 1]])
      (List.replicate 64 0) 54 rfl (by decide) (by decide)⟩

/-! ## C2 -/

theorem enumFrom_pow_sum {p : ℕ} (a : ℕ → ZMod p) :
    ∀ (bits : List ℕ) (c : ℕ),
      ((List.enumFrom c bits).map fun bi => (2 : ZMod p) ^ bi.1 * a bi.2).sum =
        ((List.range bits.length).map fun k =>
          (2 : ZMod p) ^ (c + k) * a (bits.getD k 0)).sum := by
  intro bits
  induction bits with
  | nil => intro c; simp
  | cons b t ih =>
      intro c
      rw [List.enumFrom_cons]
      simp only [List.map_cons, List.sum_cons]
      rw [ih (c + 1), List.length_cons, List.range_succ_eq_map]
      simp only [List.map_cons, List.sum_cons, List.map_map, Nat.add_zero,
        List.getD_cons_zero]
      congr 1
      refine congrArg List.sum (List.map_congr_left fun k hk => ?_)
      simp only [Function.comp_apply, List.getD_cons_succ]
      congr 2
      omega

/-- The decode fold appends one Witness-mode variable per chunk carrying the
chunk's `from_le_bytes_mod_order` value, returns the corresponding fresh
variable indices in order, and leaves the constraint list untouched. -/
theorem poseidonDecode_characterization {p : ℕ} :
    ∀ (cl : List (List UInt8V)) (cs : CSState p) (outs : List (FpV p)),
      cl.foldl
        (fun acc chunk =>
          let value := from_le_bytes_mod_order p (chunk.map UInt8V.val)
          let alloc := newWitnessVar acc.1 value
          (alloc.1, acc.2 ++ [FpV.Var alloc.2]))
        (cs, outs) =
      ({ vars := cs.vars ++ cl.map fun chunk =>
           (AllocMode.witness, from_le_bytes_mod_order p (chunk.map UInt8V.val)),
         constraints := cs.constraints },
       outs ++ (List.range cl.length).map fun k => FpV.Var (cs.vars.length + k)) := by
  intro cl
  induction cl with
  | nil => intro cs outs; simp
  | cons c t ih =>
      intro cs outs
      rw [List.foldl_cons]
      refine Eq.trans (ih
        ⟨cs.vars ++ [(AllocMode.witness,
          from_le_bytes_mod_order p (c.map UInt8V.val))], cs.constraints⟩
        (outs ++ [FpV.Var cs.vars.length])) ?_
      rw [Prod.ext_iff]
      constructor
      · simp [List.append_assoc]
      · simp only [List.length_append, List.length_singleton, List.length_cons,
          List.length_range, List.range_succ_eq_map, List.map_cons, Nat.add_zero,
          List.map_map, List.append_assoc, List.singleton_append]
        congr 2
        refine List.map_congr_left fun k hk => ?_
        simp only [Function.comp_apply, List.length_singleton, List.length_cons,
          List.length_nil]
        congr 1
        omega

/-- C2 (corrected): the Poseidon gadget's decode step does not perform
little-endian bit reconstruction.  It allocates, per 32-byte chunk, one
fresh Witness-mode variable whose prover-assigned value is
`from_le_bytes_mod_order` of the byte variables' concrete values, and it
emits no constraint at all — so the decoded variable is assigned, not
constrained.  Little-endian bit reconstruction is what `lib.rs`'s
`to_field_var_elements` does (used by the identity gadget): its output is a
linear combination of the existing bit variables, which under every
assignment evaluates to the bits' little-endian value by construction. -/
theorem C2_decode_allocates_unconstrained {p : ℕ} (cs : CSState p)
    (input : List UInt8V) :
    ((poseidonDecode cs input).1.constraints = cs.constraints) ∧
    ((poseidonDecode cs input).2 =
      (List.range (chunks 32 input).length).map fun k =>
        FpV.Var (cs.vars.length + k)) ∧
    ((poseidonDecode cs input).1.vars =
      cs.vars ++ (chunks 32 input).map fun chunk =>
        (AllocMode.witness, from_le_bytes_mod_order p (chunk.map UInt8V.val))) ∧
    (∀ (a : ℕ → ZMod p) (L k : ℕ) (f : FpV p),
      (to_field_var_elements p L input).get? k = some f →
      FpV.eval a f =
        bitsLeVal a (((chunks L input).getD k []).map UInt8V.bits).join) := by
  have hchar := poseidonDecode_characterization (chunks 32 input) cs []
  refine ⟨?_, ?_, ?_, ?_⟩
  · unfold poseidonDecode
    rw [hchar]
  · unfold poseidonDecode
    rw [hchar]
    simp
  · unfold poseidonDecode
    rw [hchar]
  · intro a L k f hf
    unfold to_field_var_elements at hf
    rw [List.get?_map] at hf
    cases hc : (chunks L input).get? k with
    | none => rw [hc] at hf; cases hf
    | some chunk =>
        rw [hc] at hf
        injection hf with hf
        rw [← hf]
        have hchunk : (chunks L input).getD k [] = chunk := by
          rw [List.getD_eq_get?, hc]
          rfl
        rw [hchunk]
        simp only [FpV.eval]
        rw [List.map_map, List.enum_eq_enumFrom]
        have h1 : ((chunk.map UInt8V.bits).join.enumFrom 0).map
            ((fun t : ZMod p × ℕ => t.1 * a t.2) ∘ fun bi : ℕ × ℕ =>
              ((2 : ZMod p) ^ bi.1, bi.2)) =
          ((chunk.map UInt8V.bits).join.enumFrom 0).map
            (fun bi : ℕ × ℕ => (2 : ZMod p) ^ bi.1 * a bi.2) :=
          List.map_congr_left fun bi _ => rfl
        rw [h1, enumFrom_pow_sum a _ 0]
        unfold bitsLeVal
        refine congrArg List.sum (List.map_congr_left fun k _ => ?_)
        rw [Nat.zero_add]

set_option maxRecDepth 10000 in
/-- C2 counterexample: on a concrete 32-byte circuit input (byte 0 holds 1,
bits allocated as variables 0-255 with their booleanity constraints), the
decode step of the Poseidon gadget returns the fresh variable 256, adds no
constraint, and the assignment giving that variable 3 satisfies every
constraint of the resulting system although the little-endian value of the
byte variables is 1 — the decoded element is not constrained to equal it. -/
theorem C2_counterexample :
    (poseidonDecode c2CS c2Input).2.get? 0 = some (FpV.Var 256) ∧
    (poseidonDecode c2CS c2Input).1.constraints = c2CS.constraints ∧
    satisfies c2Assign (poseidonDecode c2CS c2Input).1.constraints ∧
    FpV.eval c2Assign (FpV.Var 256) = 3 ∧
    bytesLeValUnder c2Assign c2Input = 1 ∧
    (3 : ZMod 11) ≠ 1 :=
  ⟨by decide, by decide, by decide, by decide, by decide, by decide⟩

/-- C2 witness: the amended statement at the concrete C2 instance — no
constraints added by the decode, and the bit-reconstruction path evaluates
to the bits' little-endian value. -/
theorem C2_decode_allocates_unconstrained_witness :
    (poseidonDecode c2CS c2Input).1.constraints = c2CS.constraints ∧
    FpV.eval c2Assign
        (FpV.Lc [(1, 0), (2, 1), (4, 2), (8, 3), (5, 4), (10, 5), (9, 6), (7, 7)]) =
      bitsLeVal c2Assign
        (((chunks 1 c2Input).getD 0 []).map UInt8V.bits).join :=
  ⟨(C2_decode_allocates_unconstrained c2CS c2Input).1,
    (C2_decode_allocates_unconstrained c2CS c2Input).2.2.2 c2Assign 1 0 _
      (by decide)⟩

end CryptoPrimitives
